import Mathlib

/-!
# Short-answer grading (`c_modules/src/grading.c`)

A shallow embedding of `normalize_string`, `levenshtein_distance` and
`calculate_score`, followed by theorems about them.

Conventions of the embedding.

* A C string is modelled by the list of its bytes before the terminating NUL;
  a byte is a natural number (for a well-formed string each byte is in `1..255`).
  A nullable `const char*` is an `Option` of such a list.
* `isspace` and `tolower` are those of the "C" locale.
* `int` values that stay below `2 * 257` (`dist`, the entries of `v0`/`v1`, the length of a
  normalized string) are natural numbers; the lengths `int len1 = strlen(s1)` and
  `int len2 = strlen(s2)` of `levenshtein_distance`, which can wrap around for a string of
  2^31 characters or more, are `Int` values obtained by `toInt`; `full_score` is an
  arbitrary `Int` that is only passed through.
* An `int[MAX_STR_LEN + 1]` array is a list of 257 entries, read with `List.getD` and
  written with `List.set`; a `char` buffer being filled is the list `dest[0..j)`, so the
  write index `j` is its length.
-/

namespace Grading

/-! ## Definitions -/

/-- Header constant `#define MAX_STR_LEN 256`. -/
def MAX_STR_LEN : Nat := 256

/-- Macro `MIN(a,b) (((a)<(b))?(a):(b))`. -/
def MIN (a b : Nat) : Nat := if a < b then a else b

/-- Macro `MIN3(a,b,c) MIN(MIN(a,b),c)`. -/
def MIN3 (a b c : Nat) : Nat := MIN (MIN a b) c

/-- Library `isspace` in the "C" locale: space, `\t`, `\n`, `\v`, `\f`, `\r`. -/
def isspace (c : Nat) : Bool := c == 32 || (9 ≤ c && c ≤ 13)

/-- Library `tolower` in the "C" locale: `A..Z` go to `a..z`, every other byte is kept. -/
def tolower (c : Nat) : Nat := if 65 ≤ c ∧ c ≤ 90 then c + 32 else c

/-- First loop of `normalize_string`: `while (src[i] && isspace(src[i])) i++;`.
The argument and the result are the part of `src` from index `i` on. -/
def skipLeading : List Nat → List Nat
  | [] => []
  | c :: cs => if isspace c then skipLeading cs else c :: cs

/-- Second loop of `normalize_string`: `while (src[i] && j < dest_size - 1) { ... i++; }`.
The first list is `src` from index `i` on, `dest` holds `dest[0..j)`, and the
flag is `space_seen`. -/
def copyLoop (dest_size : Nat) : List Nat → List Nat → Bool → List Nat
  | [], dest, _ => dest
  | c :: cs, dest, space_seen =>
    if dest.length < dest_size - 1 then
      if isspace c then
        if !space_seen then copyLoop dest_size cs (dest ++ [32]) true
        else copyLoop dest_size cs dest space_seen
      else copyLoop dest_size cs (dest ++ [tolower c]) false
    else dest

/-- Tail of `normalize_string`: `if (j > 0 && dest[j-1] == ' ') j--; dest[j] = 0;`. -/
def dropTrailingSpace (dest : List Nat) : List Nat :=
  if 0 < dest.length ∧ dest.getD (dest.length - 1) 0 = 32 then dest.take (dest.length - 1)
  else dest

/-- Function `normalize_string(dest, src, dest_size)`, returning the string left in `dest`.
`dest_size` is at least 1 (the only caller passes `sizeof buffer = 257`). -/
def normalize_string (src : List Nat) (dest_size : Nat) : List Nat :=
  dropTrailingSpace (copyLoop dest_size (skipLeading src) [] false)

/-- Loop `for (int i = 0; i <= len2; i++) v0[i] = i;`, the first argument being the
number of iterations left. -/
def initLoop : Nat → Nat → List Nat → List Nat
  | 0, _, v0 => v0
  | n + 1, i, v0 => initLoop n (i + 1) (v0.set i i)

/-- Inner loop `for (int j = 0; j < len2; j++) { cost = ...; v1[j+1] = MIN3(...); }` of
`levenshtein_distance` for the character `c1 = s1[i]`; the first argument is the number of
iterations left, `len2 - j`. -/
def innerLoop (c1 : Nat) (s2 v0 : List Nat) : Nat → Nat → List Nat → List Nat
  | 0, _, v1 => v1
  | n + 1, j, v1 =>
    let cost := if c1 = s2.getD j 0 then 0 else 1
    innerLoop c1 s2 v0 n (j + 1)
      (v1.set (j + 1) (MIN3 (v1.getD j 0 + 1) (v0.getD (j + 1) 0 + 1) (v0.getD j 0 + cost)))

/-- The call `memcpy(v0, v1, (len2 + 1) * sizeof(int))`. -/
def memcpy (v0 v1 : List Nat) (n : Nat) : List Nat := v1.take n ++ v0.drop n

/-- Conversion of a `size_t` value to `int`, as in `int len1 = strlen(s1)`: the value is
reduced modulo 2^32 and read as a two's-complement number. The C standard leaves the
out-of-range case to the implementation; this is what the usual compilers do. -/
def toInt (n : Nat) : Int :=
  if n % 4294967296 < 2147483648 then Int.ofNat (n % 4294967296)
  else Int.ofNat (n % 4294967296) - 4294967296

/-- Number of `int` entries covered by `memcpy(.., .., k * sizeof(int))` for an `int` value
`k`: `k` is converted to `size_t` (64 bits) and multiplied by `sizeof(int) = 4` modulo
2^64, which gives the number of bytes. -/
def copyCount (k : Int) : Nat :=
  (k % 18446744073709551616).toNat * 4 % 18446744073709551616 / 4

/-- Read of `v[i]` for an `int` index `i`. A read before the start of the array is
undefined in C; the value is then modelled as 0. -/
def readInt (v : List Nat) (i : Int) : Nat := if 0 ≤ i then v.getD i.toNat 0 else 0

/-- Outer loop `for (int i = 0; i < len1; i++) { v1[0] = i + 1; ...; memcpy(...); }` of
`levenshtein_distance`; the first argument is the number of iterations left, `len1 - i`.
The inner loop `j < len2` runs `len2.toNat` times (not at all for a negative `len2`).
The result is the final content of `v0`. -/
def outerLoop (s1 s2 : List Nat) (len2 : Int) : Nat → Nat → List Nat → List Nat → List Nat
  | 0, _, v0, _ => v0
  | n + 1, i, v0, v1 =>
    let v1a := innerLoop (s1.getD i 0) s2 v0 len2.toNat 0 (v1.set 0 (i + 1))
    outerLoop s1 s2 len2 n (i + 1) (memcpy v0 v1a (copyCount (len2 + 1))) v1a

/-- Function `levenshtein_distance(s1, s2)`. The two local arrays start with
indeterminate content, modelled as zeros. The loop `i <= len2` runs `(len2 + 1).toNat`
times and the loop `i < len1` runs `len1.toNat` times. -/
def levenshtein_distance (s1 s2 : List Nat) : Nat :=
  let len1 : Int := if toInt s1.length > MAX_STR_LEN then MAX_STR_LEN else toInt s1.length
  let len2 : Int := if toInt s2.length > MAX_STR_LEN then MAX_STR_LEN else toInt s2.length
  let v0 := initLoop (len2 + 1).toNat 0 (List.replicate (MAX_STR_LEN + 1) 0)
  let v1 := List.replicate (MAX_STR_LEN + 1) 0
  readInt (outerLoop s1 s2 len2 len1.toNat 0 v0 v1) len2

/-- The tier computation of `calculate_score`: `0` for `len <= 3`, `1` for `len <= 8`,
else `(int)(len * 0.25)`. The product is exact in `double` for the lengths that occur
(`len <= 256`), and the conversion truncates, so the value is `len / 4`. -/
def allowedErrors (len : Nat) : Nat :=
  if len ≤ 3 then 0 else if len ≤ 8 then 1 else len / 4

/-- Exported function `calculate_score(user_ans, correct_ans, full_score)`; `none` is a
null pointer. -/
def calculate_score (user_ans correct_ans : Option (List Nat)) (full_score : Int) : Int :=
  match user_ans, correct_ans with
  | some u, some c =>
    let u_norm := normalize_string u (MAX_STR_LEN + 1)
    let c_norm := normalize_string c (MAX_STR_LEN + 1)
    if u_norm = c_norm then full_score
    else
      let len := c_norm.length
      let dist := levenshtein_distance u_norm c_norm
      let allowed_errors := allowedErrors len
      if dist > len / 2 then 0
      else if dist ≤ allowed_errors then full_score
      else 0
  | _, _ => 0

/-! ## Definitions used to state and prove the properties -/

/-- Recurrence of the specification (section 4.3): `specEditDistance a b i j` is `d[i][j]`,
the distance between the first `i` characters of `a` and the first `j` characters of `b`,
with `d[i][0] = i`, `d[0][j] = j` and
`d[i][j] = min(d[i-1][j]+1, d[i][j-1]+1, d[i-1][j-1]+cost)`, where `cost` is 0 if the
characters `a[i-1]` and `b[j-1]` match and 1 otherwise. -/
def specEditDistance (a b : List Nat) : Nat → Nat → Nat
  | 0, j => j
  | i + 1, 0 => i + 1
  | i + 1, j + 1 =>
    min (min (specEditDistance a b i (j + 1) + 1) (specEditDistance a b (i + 1) j + 1))
      (specEditDistance a b i j + (if a.getD i 0 = b.getD j 0 then 0 else 1))
termination_by i j => (i, j)

/-- One single-character edit of a string: an insertion, a deletion or a substitution at
any position. -/
inductive EditStep : List Nat → List Nat → Prop
  | insert (p q : List Nat) (c : Nat) : EditStep (p ++ q) (p ++ c :: q)
  | delete (p q : List Nat) (c : Nat) : EditStep (p ++ c :: q) (p ++ q)
  | substitute (p q : List Nat) (c d : Nat) : EditStep (p ++ c :: q) (p ++ d :: q)

/-- The string `a` is transformed into `b` by exactly `n` single-character edits. -/
inductive EditsIn : Nat → List Nat → List Nat → Prop
  | done (a : List Nat) : EditsIn 0 a a
  | step {n : Nat} {a b c : List Nat} : EditStep a b → EditsIn n b c → EditsIn (n + 1) a c

/-- The recurrence of the edit distance read from the front of the two strings. -/
def frontEditDistance : List Nat → List Nat → Nat
  | [], b => b.length
  | x :: xs, [] => xs.length + 1
  | x :: xs, y :: ys =>
    min (min (frontEditDistance xs (y :: ys) + 1) (frontEditDistance (x :: xs) ys + 1))
      (frontEditDistance xs ys + (if x = y then 0 else 1))
termination_by a b => (a.length, b.length)

/-- The untruncated normalized form of `s`: `normalize_string` run with a destination large
enough for the whole input, so that the test `j < dest_size - 1` never ends the loop. -/
def normalize_untruncated (s : List Nat) : List Nat := normalize_string s (s.length + 2)

/-- A whitespace character: space, tab, newline, vertical tab, form feed, carriage return. -/
def isWhitespace (c : Nat) : Prop := c = 32 ∨ c = 9 ∨ c = 10 ∨ c = 11 ∨ c = 12 ∨ c = 13

instance instDecidableIsWhitespace (c : Nat) : Decidable (isWhitespace c) := by
  unfold isWhitespace
  infer_instance

/-- One change of case or spacing: an ASCII letter changes case, a whitespace character is
added in front or at the end, or a non-empty run of whitespace is replaced by another
non-empty run of whitespace. -/
inductive CaseSpaceStep : List Nat → List Nat → Prop
  | toUpper (p q : List Nat) (c : Nat) : 97 ≤ c → c ≤ 122 →
      CaseSpaceStep (p ++ c :: q) (p ++ (c - 32) :: q)
  | toLower (p q : List Nat) (c : Nat) : 65 ≤ c → c ≤ 90 →
      CaseSpaceStep (p ++ c :: q) (p ++ (c + 32) :: q)
  | lead (s : List Nat) (w : Nat) : isWhitespace w → CaseSpaceStep s (w :: s)
  | trail (s : List Nat) (w : Nat) : isWhitespace w → CaseSpaceStep s (s ++ [w])
  | run (p q r r2 : List Nat) : r ≠ [] → r2 ≠ [] → (∀ w, w ∈ r → isWhitespace w) →
      (∀ w, w ∈ r2 → isWhitespace w) → CaseSpaceStep (p ++ r ++ q) (p ++ r2 ++ q)

/-- The string `t` is obtained from `s` by any number of changes of case or spacing. -/
def CaseSpaceVariant (s t : List Nat) : Prop := Relation.ReflTransGen CaseSpaceStep s t

/-- Everything the copy loop of `normalize_string` would write with an unbounded
destination, started with the given `space_seen` flag. -/
def collapse : Bool → List Nat → List Nat
  | _, [] => []
  | seen, c :: cs =>
    if isspace c then (if seen then collapse true cs else 32 :: collapse true cs)
    else tolower c :: collapse false cs

/-- Value of `space_seen` after the copy loop has read the given characters. -/
def seenAfter : Bool → List Nat → Bool
  | seen, [] => seen
  | _, c :: cs => seenAfter (isspace c) cs

/-- Shape of the text the copy loop writes: every character is a space or a
non-whitespace character fixed by `tolower`, and no space follows a space; with the flag
set the text does not start with a space either. -/
def Collapsed : Bool → List Nat → Prop
  | _, [] => True
  | prev, c :: cs =>
    if c = 32 then prev = false ∧ Collapsed true cs
    else (isspace c = false ∧ tolower c = c) ∧ Collapsed false cs

/-- Variant of `calculate_score` with the half-length test `if (dist > len / 2) return 0;`
removed and everything else kept. -/
def calculate_score_noclamp (user_ans correct_ans : Option (List Nat)) (full_score : Int) : Int :=
  match user_ans, correct_ans with
  | some u, some c =>
    let u_norm := normalize_string u (MAX_STR_LEN + 1)
    let c_norm := normalize_string c (MAX_STR_LEN + 1)
    if u_norm = c_norm then full_score
    else
      let len := c_norm.length
      let dist := levenshtein_distance u_norm c_norm
      let allowed_errors := allowedErrors len
      if dist ≤ allowed_errors then full_score
      else 0
  | _, _ => 0

/-! ### Bounds-checked versions of the functions -/

/-- Write `v[i] = x`; `none` when the index is outside the array. -/
def writeAt (v : List Nat) (i x : Nat) : Option (List Nat) :=
  if i < v.length then some (v.set i x) else none

theorem isspace_32 : isspace 32 = true := by decide

theorem tolower_ne_32 {c : Nat} (h : isspace c = false) : tolower c ≠ 32 := by
  unfold tolower isspace at *
  split <;> simp at h ⊢ <;> omega

theorem isspace_tolower {c : Nat} (h : isspace c = false) : isspace (tolower c) = false := by
  unfold tolower
  split
  · unfold isspace; simp; omega
  · exact h

theorem tolower_tolower (c : Nat) : tolower (tolower c) = tolower c := by
  unfold tolower
  split
  · rw [if_neg (by omega)]
  · rfl

theorem copyLoop_eq (n : Nat) (src : List Nat) :
    ∀ (dest : List Nat) (seen : Bool),
      copyLoop n src dest seen = dest ++ (collapse seen src).take (n - 1 - dest.length) := by
  induction src with
  | nil => intro dest seen; simp [copyLoop, collapse]
  | cons c cs ih =>
    intro dest seen
    unfold copyLoop
    by_cases hlt : dest.length < n - 1
    · have hk : n - 1 - dest.length = (n - 1 - (dest.length + 1)) + 1 := by omega
      rw [if_pos hlt]
      cases hc : isspace c
      · simp only [collapse, hc, Bool.false_eq_true, if_false]
        rw [ih, hk]
        simp [List.take_succ_cons]
      · cases seen
        · simp only [collapse, hc, if_true, Bool.not_false, Bool.false_eq_true, if_false]
          rw [ih, hk]
          simp [List.take_succ_cons]
        · simp only [collapse, hc, if_true, Bool.not_true, Bool.false_eq_true, if_false]
          rw [ih]
    · rw [if_neg hlt]
      have : n - 1 - dest.length = 0 := by omega
      simp [this]

theorem normalize_string_eq (s : List Nat) (n : Nat) :
    normalize_string s n = dropTrailingSpace ((collapse false (skipLeading s)).take (n - 1)) := by
  unfold normalize_string
  rw [copyLoop_eq]
  simp

theorem collapsed_collapse (l : List Nat) : ∀ seen, Collapsed seen (collapse seen l) := by
  induction l with
  | nil => intro seen; simp [collapse, Collapsed]
  | cons c cs ih =>
    intro seen
    cases hc : isspace c
    · simp only [collapse, hc, Bool.false_eq_true, if_false, Collapsed, if_neg (tolower_ne_32 hc)]
      exact ⟨⟨isspace_tolower hc, tolower_tolower c⟩, ih false⟩
    · cases seen
      · simp only [collapse, hc, if_true, Bool.false_eq_true, if_false, Collapsed]
        exact ⟨trivial, ih true⟩
      · simp only [collapse, hc, if_true]
        exact ih true

theorem collapsed_mono {l : List Nat} {p : Bool} (h : Collapsed p l) : Collapsed false l := by
  cases l with
  | nil => trivial
  | cons c cs =>
    simp only [Collapsed] at h ⊢
    split
    · next h32 => rw [if_pos h32] at h; exact ⟨trivial, h.2⟩
    · next h32 => rw [if_neg h32] at h; exact h

theorem skipLeading_head (s : List Nat) :
    skipLeading s = [] ∨ ∃ c cs, skipLeading s = c :: cs ∧ isspace c = false := by
  induction s with
  | nil => left; rfl
  | cons c cs ih =>
    unfold skipLeading
    cases hc : isspace c
    · right; exact ⟨c, cs, by simp, hc⟩
    · simpa using ih

theorem collapsed_collapse_skip (s : List Nat) :
    Collapsed true (collapse false (skipLeading s)) := by
  rcases skipLeading_head s with h | ⟨c, cs, h, hc⟩
  · rw [h]; simp [collapse, Collapsed]
  · rw [h]
    simp only [collapse, hc, Bool.false_eq_true, if_false, Collapsed, if_neg (tolower_ne_32 hc)]
    exact ⟨⟨isspace_tolower hc, tolower_tolower c⟩, collapsed_collapse cs false⟩

theorem collapsed_take {l : List Nat} : ∀ {p : Bool} (k : Nat), Collapsed p l → Collapsed p (l.take k) := by
  induction l with
  | nil => intro p k h; simpa using h
  | cons c cs ih =>
    intro p k h
    cases k with
    | zero => simp [Collapsed]
    | succ k =>
      simp only [List.take_succ_cons, Collapsed] at h ⊢
      split
      · next h32 => rw [if_pos h32] at h; exact ⟨h.1, ih k h.2⟩
      · next h32 => rw [if_neg h32] at h; exact ⟨h.1, ih k h.2⟩

/-- a collapsed list is left alone by the first loop -/
theorem skipLeading_of_collapsed {l : List Nat} (h : Collapsed true l) : skipLeading l = l := by
  cases l with
  | nil => rfl
  | cons c cs =>
    simp only [Collapsed] at h
    by_cases h32 : c = 32
    · rw [if_pos h32] at h; simp at h
    · rw [if_neg h32] at h
      simp [skipLeading, h.1.1]

theorem collapse_of_collapsed {l : List Nat} :
    ∀ {p q : Bool}, Collapsed p l → (q = true → p = true) → collapse q l = l := by
  induction l with
  | nil => intro p q _ _; rfl
  | cons c cs ih =>
    intro p q h hq
    simp only [Collapsed] at h
    by_cases h32 : c = 32
    · rw [if_pos h32] at h
      subst h32
      have hqf : q = false := by
        cases q
        · rfl
        · have := hq rfl; rw [h.1] at this; cases this
      subst hqf
      simp only [collapse, isspace_32, if_true, Bool.false_eq_true, if_false]
      rw [ih h.2 (fun _ => rfl)]
    · rw [if_neg h32] at h
      simp only [collapse, h.1.1, Bool.false_eq_true, if_false, h.1.2]
      rw [ih h.2 (fun hf => hf)]

theorem eq_nil_or_snoc (l : List Nat) : l = [] ∨ ∃ L x, l = L ++ [x] := by
  rcases List.eq_nil_or_concat l with h | ⟨L, x, h⟩
  · exact Or.inl h
  · exact Or.inr ⟨L, x, by simpa using h⟩

theorem dropTrailingSpace_nil : dropTrailingSpace [] = [] := by
  simp [dropTrailingSpace]

theorem dropTrailingSpace_snoc (l : List Nat) (x : Nat) :
    dropTrailingSpace (l ++ [x]) = if x = 32 then l else l ++ [x] := by
  unfold dropTrailingSpace
  simp [List.getD_eq_getElem?_getD]

theorem dropTrailingSpace_length_le (l : List Nat) : (dropTrailingSpace l).length ≤ l.length := by
  unfold dropTrailingSpace
  split <;> simp

theorem not_collapsed_two_spaces (l : List Nat) : ∀ p, ¬ Collapsed p (l ++ [32, 32]) := by
  induction l with
  | nil => intro p h; simp [Collapsed] at h
  | cons c cs ih =>
    intro p h
    simp only [List.cons_append, Collapsed] at h
    by_cases h32 : c = 32
    · rw [if_pos h32] at h; exact ih _ h.2
    · rw [if_neg h32] at h; exact ih _ h.2

theorem collapsed_dropTrailingSpace {l : List Nat} {p : Bool} (h : Collapsed p l) :
    Collapsed p (dropTrailingSpace l) := by
  unfold dropTrailingSpace
  split
  · exact collapsed_take _ h
  · exact h

theorem dropTrailingSpace_idem {l : List Nat} {p : Bool} (h : Collapsed p l) :
    dropTrailingSpace (dropTrailingSpace l) = dropTrailingSpace l := by
  rcases eq_nil_or_snoc l with rfl | ⟨L, x, rfl⟩
  · simp [dropTrailingSpace_nil]
  · rw [dropTrailingSpace_snoc]
    by_cases hx : x = 32
    · subst hx
      rw [if_pos rfl]
      rcases eq_nil_or_snoc L with rfl | ⟨L2, y, rfl⟩
      · exact dropTrailingSpace_nil
      · rw [dropTrailingSpace_snoc]
        by_cases hy : y = 32
        · subst hy
          exact absurd (by simpa using h) (not_collapsed_two_spaces L2 p)
        · rw [if_neg hy]
    · rw [if_neg hx, dropTrailingSpace_snoc, if_neg hx]

/-- the output of `normalize_string` is collapsed -/
theorem collapsed_normalize (s : List Nat) (n : Nat) : Collapsed true (normalize_string s n) := by
  rw [normalize_string_eq]
  exact collapsed_dropTrailingSpace (collapsed_take _ (collapsed_collapse_skip s))

theorem normalize_string_length_le (s : List Nat) (n : Nat) :
    (normalize_string s n).length ≤ n - 1 := by
  rw [normalize_string_eq]
  refine le_trans (dropTrailingSpace_length_le _) ?_
  simp

theorem normalize_string_idem (s : List Nat) (n : Nat) :
    normalize_string (normalize_string s n) n = normalize_string s n := by
  have hc := collapsed_normalize s n
  have hl := normalize_string_length_le s n
  rw [normalize_string_eq (normalize_string s n), skipLeading_of_collapsed hc,
    collapse_of_collapsed hc (fun h => by cases h), List.take_of_length_le hl]
  rw [normalize_string_eq]
  exact dropTrailingSpace_idem (collapsed_take _ (collapsed_collapse_skip s))

theorem collapse_length_le (l : List Nat) : ∀ seen, (collapse seen l).length ≤ l.length := by
  induction l with
  | nil => intro seen; simp [collapse]
  | cons c cs ih =>
    intro seen
    simp only [collapse]
    split
    · split
      · exact le_trans (ih true) (by simp)
      · simpa using ih true
    · simpa using ih false

theorem skipLeading_length_le (l : List Nat) : (skipLeading l).length ≤ l.length := by
  induction l with
  | nil => simp [skipLeading]
  | cons c cs ih =>
    simp only [skipLeading]
    split
    · exact le_trans ih (by simp)
    · exact le_refl _

theorem normalize_untruncated_eq (s : List Nat) :
    normalize_untruncated s = dropTrailingSpace (collapse false (skipLeading s)) := by
  unfold normalize_untruncated
  rw [normalize_string_eq, List.take_of_length_le]
  have h1 := collapse_length_le (skipLeading s) false
  have h2 := skipLeading_length_le s
  omega

theorem dropTrailingSpace_of_collapsed_snoc {L : List Nat} {p : Bool} (h : Collapsed p (L ++ [32])) :
    dropTrailingSpace L = L := by
  rcases eq_nil_or_snoc L with rfl | ⟨L2, y, rfl⟩
  · exact dropTrailingSpace_nil
  · rw [dropTrailingSpace_snoc]
    by_cases hy : y = 32
    · subst hy
      exact absurd (by simpa using h) (not_collapsed_two_spaces L2 p)
    · rw [if_neg hy]

theorem dropTrailingSpace_take {X : List Nat} {p : Bool} (h : Collapsed p X) (k : Nat) :
    dropTrailingSpace (X.take k) = dropTrailingSpace ((dropTrailingSpace X).take k) := by
  rcases eq_nil_or_snoc X with rfl | ⟨L, x, rfl⟩
  · simp [dropTrailingSpace_nil]
  · rw [dropTrailingSpace_snoc]
    by_cases hx : x = 32
    · subst hx
      rw [if_pos rfl]
      by_cases hk : k ≤ L.length
      · rw [List.take_append_of_le_length hk]
      · rw [List.take_of_length_le (by simp; omega), List.take_of_length_le (by omega),
          dropTrailingSpace_snoc, if_pos rfl, dropTrailingSpace_of_collapsed_snoc h]
    · rw [if_neg hx]

/-- the bounded result is the unbounded one, cut and trimmed again -/
theorem normalize_string_eq_take (s : List Nat) (n : Nat) :
    normalize_string s n = dropTrailingSpace ((normalize_untruncated s).take (n - 1)) := by
  rw [normalize_string_eq, normalize_untruncated_eq]
  exact dropTrailingSpace_take (collapsed_collapse_skip s) _

theorem collapsed_of_plain {l : List Nat} :
    (∀ c, c ∈ l → isspace c = false ∧ tolower c = c) → ∀ p, Collapsed p l := by
  induction l with
  | nil => intro _ _; trivial
  | cons c cs ih =>
    intro h p
    have hc := h c (by simp)
    have h32 : c ≠ 32 := by
      intro e; rw [e] at hc; exact absurd hc.1 (by decide)
    simp only [Collapsed, if_neg h32]
    exact ⟨hc, ih (fun d hd => h d (by simp [hd])) false⟩

theorem normalize_string_of_plain {l : List Nat} (n : Nat)
    (h : ∀ c, c ∈ l → isspace c = false ∧ tolower c = c) (hl : l.length ≤ n - 1) :
    normalize_string l n = l := by
  have hc := collapsed_of_plain h true
  rw [normalize_string_eq, skipLeading_of_collapsed hc,
    collapse_of_collapsed hc (fun h => by cases h), List.take_of_length_le hl]
  rcases eq_nil_or_snoc l with rfl | ⟨L, x, rfl⟩
  · exact dropTrailingSpace_nil
  · have hx := h x (by simp)
    have h32 : x ≠ 32 := by
      intro e; rw [e] at hx; exact absurd hx.1 (by decide)
    rw [dropTrailingSpace_snoc, if_neg h32]

theorem isspace_of_isWhitespace {c : Nat} (h : isWhitespace c) : isspace c = true := by
  rcases h with h | h | h | h | h | h <;> subst h <;> decide

theorem collapse_append (s t : List Nat) :
    ∀ seen, collapse seen (s ++ t) = collapse seen s ++ collapse (seenAfter seen s) t := by
  induction s with
  | nil => intro seen; simp [collapse, seenAfter]
  | cons c cs ih =>
    intro seen
    simp only [List.cons_append, collapse, seenAfter]
    cases hc : isspace c
    · simp [ih]
    · cases seen <;> simp [ih]

theorem skipLeading_append_of_space {p : List Nat} (t : List Nat)
    (h : ∀ w, w ∈ p → isspace w = true) : skipLeading (p ++ t) = skipLeading t := by
  induction p with
  | nil => rfl
  | cons c cs ih =>
    simp only [List.cons_append, skipLeading, h c (by simp), if_true]
    exact ih (fun w hw => h w (by simp [hw]))

theorem skipLeading_eq_nil {p : List Nat} (h : skipLeading p = []) :
    ∀ w, w ∈ p → isspace w = true := by
  induction p with
  | nil => intro w hw; simp at hw
  | cons c cs ih =>
    simp only [skipLeading] at h
    cases hc : isspace c
    · simp [hc] at h
    · simp only [hc, if_true] at h
      intro w hw
      rcases List.mem_cons.1 hw with rfl | hw
      · exact hc
      · exact ih h w hw

theorem skipLeading_append_of_ne_nil {p : List Nat} (t : List Nat) (h : skipLeading p ≠ []) :
    skipLeading (p ++ t) = skipLeading p ++ t := by
  induction p with
  | nil => simp [skipLeading] at h
  | cons c cs ih =>
    simp only [List.cons_append, skipLeading] at h ⊢
    cases hc : isspace c
    · simp
    · simp only [hc, if_true] at h ⊢
      exact ih h

/-- output stream of the two loops for a source `p ++ t`, in terms of what follows `p` -/
theorem collapse_skip_append (p t : List Nat) :
    collapse false (skipLeading (p ++ t)) =
      if skipLeading p = [] then collapse false (skipLeading t)
      else collapse false (skipLeading p) ++ collapse (seenAfter false (skipLeading p)) t := by
  split
  · next h => rw [skipLeading_append_of_space t (skipLeading_eq_nil h)]
  · next h => rw [skipLeading_append_of_ne_nil t h, collapse_append]

theorem collapse_true_of_space {r : List Nat} (h : ∀ w, w ∈ r → isspace w = true) :
    collapse true r = [] := by
  induction r with
  | nil => rfl
  | cons c cs ih =>
    simp only [collapse, h c (by simp), if_true]
    exact ih (fun w hw => h w (by simp [hw]))

theorem collapse_of_space {r : List Nat} (hr : r ≠ []) (h : ∀ w, w ∈ r → isspace w = true) :
    ∀ seen, collapse seen r = if seen then [] else [32] := by
  cases r with
  | nil => exact absurd rfl hr
  | cons c cs =>
    intro seen
    have := collapse_true_of_space (fun w hw => h w (List.mem_cons_of_mem c hw))
    cases seen <;> simp [collapse, h c (by simp), this]

theorem seenAfter_of_space {r : List Nat} (hr : r ≠ []) (h : ∀ w, w ∈ r → isspace w = true) :
    ∀ seen, seenAfter seen r = true := by
  induction r with
  | nil => exact absurd rfl hr
  | cons c cs ih =>
    intro seen
    simp only [seenAfter, h c (by simp)]
    cases cs with
    | nil => rfl
    | cons d ds => exact ih (by simp) (fun w hw => h w (List.mem_cons_of_mem c hw)) true

theorem collapse_space_run (r q : List Nat) (hr : r ≠ []) (h : ∀ w, w ∈ r → isspace w = true)
    (seen : Bool) : collapse seen (r ++ q) = (if seen then [] else [32]) ++ collapse true q := by
  rw [collapse_append, collapse_of_space hr h, seenAfter_of_space hr h]

theorem collapse_cons_same_lower (c d : Nat) (q : List Nat) (hc : isspace c = false)
    (hd : isspace d = false) (h : tolower c = tolower d) (seen : Bool) :
    collapse seen (c :: q) = collapse seen (d :: q) := by
  simp [collapse, hc, hd, h]

theorem skipLeading_cons_same_lower (c d : Nat) (q : List Nat) (hc : isspace c = false)
    (hd : isspace d = false) (h : tolower c = tolower d) :
    collapse false (skipLeading (c :: q)) = collapse false (skipLeading (d :: q)) := by
  simp [skipLeading, collapse, hc, hd, h]

/-- one step leaves every bounded normal form unchanged -/
theorem normalize_string_step {s t : List Nat} (h : CaseSpaceStep s t) (n : Nat) :
    normalize_string t n = normalize_string s n := by
  rw [normalize_string_eq, normalize_string_eq]
  cases h with
  | toUpper p q c h1 h2 =>
    have hc : isspace c = false := by unfold isspace; simp; omega
    have hd : isspace (c - 32) = false := by unfold isspace; simp; omega
    have hl : tolower c = tolower (c - 32) := by unfold tolower; split <;> split <;> omega
    rw [collapse_skip_append, collapse_skip_append, skipLeading_cons_same_lower c (c - 32) q hc hd hl,
      collapse_cons_same_lower c (c - 32) q hc hd hl]
  | toLower p q c h1 h2 =>
    have hc : isspace c = false := by unfold isspace; simp; omega
    have hd : isspace (c + 32) = false := by unfold isspace; simp; omega
    have hl : tolower c = tolower (c + 32) := by unfold tolower; split <;> split <;> omega
    rw [collapse_skip_append, collapse_skip_append, skipLeading_cons_same_lower c (c + 32) q hc hd hl,
      collapse_cons_same_lower c (c + 32) q hc hd hl]
  | lead _ w hw0 =>
    have hw := isspace_of_isWhitespace hw0
    simp [skipLeading, hw]
  | trail _ w hw0 =>
    have hw := isspace_of_isWhitespace hw0
    have hcs := collapsed_collapse_skip (s ++ [w])
    rw [collapse_skip_append] at hcs ⊢
    split
    · next he => simp [skipLeading, collapse, hw, he]
    · next hne =>
      rw [if_neg hne] at hcs
      cases hs : seenAfter false (skipLeading s)
      · rw [hs] at hcs
        simp only [collapse, hw, if_true, Bool.false_eq_true, if_false] at hcs ⊢
        rw [dropTrailingSpace_take hcs, dropTrailingSpace_snoc, if_pos rfl]
      · simp [collapse, hw]
  | run p q r r2 hr hr2 hsp0 hsp1 =>
    have hsp : ∀ w, w ∈ r → isspace w = true := fun w hw => isspace_of_isWhitespace (hsp0 w hw)
    have hsp2 : ∀ w, w ∈ r2 → isspace w = true := fun w hw => isspace_of_isWhitespace (hsp1 w hw)
    rw [List.append_assoc, List.append_assoc, collapse_skip_append p (r2 ++ q),
      collapse_skip_append p (r ++ q), skipLeading_append_of_space q hsp, skipLeading_append_of_space q hsp2,
      collapse_space_run r q hr hsp, collapse_space_run r2 q hr2 hsp2]

theorem normalize_string_variant {s t : List Nat} (h : CaseSpaceVariant s t) (n : Nat) :
    normalize_string t n = normalize_string s n := by
  induction h with
  | refl => rfl
  | tail _ hstep ih => rw [normalize_string_step hstep, ih]

/-! ## Lemmas on `levenshtein_distance` -/

theorem specEditDistance_zero_left (a b : List Nat) (j : Nat) : specEditDistance a b 0 j = j := by
  rw [specEditDistance]

theorem specEditDistance_zero_right (a b : List Nat) (i : Nat) : specEditDistance a b i 0 = i := by
  cases i with
  | zero => rw [specEditDistance]
  | succ i => rw [specEditDistance]

theorem specEditDistance_succ_succ (a b : List Nat) (i j : Nat) :
    specEditDistance a b (i + 1) (j + 1) =
      min (min (specEditDistance a b i (j + 1) + 1) (specEditDistance a b (i + 1) j + 1))
        (specEditDistance a b i j + (if a.getD i 0 = b.getD j 0 then 0 else 1)) := by
  rw [specEditDistance]

theorem MIN_eq_min (a b : Nat) : MIN a b = min a b := by
  unfold MIN; split <;> omega

theorem MIN3_eq_min (a b c : Nat) : MIN3 a b c = min (min a b) c := by
  unfold MIN3; rw [MIN_eq_min, MIN_eq_min]

theorem getD_set_eq (v : List Nat) (i x : Nat) (h : i < v.length) : (v.set i x).getD i 0 = x := by
  simp [List.getD_eq_getElem?_getD, List.getElem?_set, h]

theorem getD_set_ne (v : List Nat) (i k x : Nat) (h : i ≠ k) : (v.set i x).getD k 0 = v.getD k 0 := by
  simp [List.getD_eq_getElem?_getD, List.getElem?_set, h]

theorem initLoop_spec : ∀ (n i : Nat) (v : List Nat), i + n ≤ v.length →
    (∀ k, k < i → v.getD k 0 = k) →
    (initLoop n i v).length = v.length ∧ ∀ k, k < i + n → (initLoop n i v).getD k 0 = k := by
  intro n
  induction n with
  | zero => intro i v _ h; exact ⟨rfl, fun k hk => h k (by omega)⟩
  | succ n ih =>
    intro i v hlen h
    have := ih (i + 1) (v.set i i) (by simp; omega) (by
      intro k hk
      by_cases hki : i = k
      · subst hki; exact getD_set_eq _ _ _ (by omega)
      · rw [getD_set_ne _ _ _ _ hki]; exact h k (by omega))
    simp only [initLoop]
    refine ⟨by simpa using this.1, fun k hk => this.2 k (by omega)⟩

theorem innerLoop_spec (s1 s2 : List Nat) (i : Nat) (v0 : List Nat) :
    ∀ (n j : Nat) (v1 : List Nat), j + n < v1.length →
    (∀ k, k ≤ j + n → v0.getD k 0 = specEditDistance s1 s2 i k) →
    (∀ k, k ≤ j → v1.getD k 0 = specEditDistance s1 s2 (i + 1) k) →
    (innerLoop (s1.getD i 0) s2 v0 n j v1).length = v1.length ∧
      ∀ k, k ≤ j + n → (innerLoop (s1.getD i 0) s2 v0 n j v1).getD k 0 = specEditDistance s1 s2 (i + 1) k := by
  intro n
  induction n with
  | zero => intro j v1 _ _ h1; exact ⟨rfl, fun k hk => h1 k (by omega)⟩
  | succ n ih =>
    intro j v1 hlen h0 h1
    simp only [innerLoop]
    have := ih (j + 1) (v1.set (j + 1) (MIN3 (v1.getD j 0 + 1) (v0.getD (j + 1) 0 + 1)
        (v0.getD j 0 + if s1.getD i 0 = s2.getD j 0 then 0 else 1)))
      (by simp; omega) (fun k hk => h0 k (by omega)) (by
        intro k hk
        by_cases hkj : j + 1 = k
        · subst hkj
          rw [getD_set_eq _ _ _ (by omega), MIN3_eq_min, h1 j (le_refl _), h0 j (by omega),
            h0 (j + 1) (by omega), specEditDistance_succ_succ]
          omega
        · rw [getD_set_ne _ _ _ _ hkj]; exact h1 k (by omega))
    exact ⟨by simpa using this.1, fun k hk => this.2 k (by omega)⟩

theorem memcpy_length (v0 v1 : List Nat) (n : Nat) (h : v0.length = v1.length) (hn : n ≤ v1.length) :
    (memcpy v0 v1 n).length = v0.length := by
  simp [memcpy]; omega

theorem memcpy_getD (v0 v1 : List Nat) (n k : Nat) (hk : k < n) (hn : n ≤ v1.length) :
    (memcpy v0 v1 n).getD k 0 = v1.getD k 0 := by
  have h1 : k < (v1.take n).length := by simp; omega
  simp only [memcpy, List.getD_eq_getElem?_getD]
  rw [List.getElem?_append_left h1, List.getElem?_take_of_lt hk]

theorem toInt_of_lt {n : Nat} (h : n < 2147483648) : toInt n = (n : Int) := by
  unfold toInt
  have : n % 4294967296 = n := Nat.mod_eq_of_lt (by omega)
  rw [this, if_pos h]
  rfl

theorem copyCount_cast (k : Nat) (h : k ≤ 257) : copyCount (k : Int) = k := by
  unfold copyCount
  omega

theorem fits_of_le {l : List Nat} (h : l.length ≤ MAX_STR_LEN) : l.length < 2147483648 := by
  unfold MAX_STR_LEN at h
  omega

/-- the capped length of a string whose length fits `int` -/
theorem cap_of_lt {n : Nat} (h : n < 2147483648) :
    (if toInt n > (MAX_STR_LEN : Int) then (MAX_STR_LEN : Int) else toInt n) =
      ((min n MAX_STR_LEN : Nat) : Int) := by
  rw [toInt_of_lt h]
  unfold MAX_STR_LEN
  split <;> omega

theorem outerLoop_spec (s1 s2 : List Nat) (len2 : Nat) (hcap : len2 ≤ 256) :
    ∀ (n i : Nat) (v0 v1 : List Nat), len2 < v0.length → v0.length = v1.length →
    (∀ k, k ≤ len2 → v0.getD k 0 = specEditDistance s1 s2 i k) →
    ∀ k, k ≤ len2 →
      (outerLoop s1 s2 (len2 : Int) n i v0 v1).getD k 0 = specEditDistance s1 s2 (i + n) k := by
  have ht : (len2 : Int).toNat = len2 := by omega
  have hcc : copyCount ((len2 : Int) + 1) = len2 + 1 := by
    have := copyCount_cast (len2 + 1) (by omega)
    simpa using this
  intro n
  induction n with
  | zero => intro i v0 v1 _ _ h k hk; exact h k hk
  | succ n ih =>
    intro i v0 v1 hlen hlen2 h k hk
    simp only [outerLoop, ht, hcc]
    have hin := innerLoop_spec s1 s2 i v0 len2 0 (v1.set 0 (i + 1)) (by simp; omega)
      (fun k hk => h k (by omega)) (by
        intro k hk
        have : k = 0 := by omega
        subst this
        rw [getD_set_eq _ _ _ (by omega), specEditDistance_zero_right])
    have hl : (innerLoop (s1.getD i 0) s2 v0 len2 0 (v1.set 0 (i + 1))).length = v1.length := by
      simpa using hin.1
    have := ih (i + 1) (memcpy v0 (innerLoop (s1.getD i 0) s2 v0 len2 0 (v1.set 0 (i + 1))) (len2 + 1))
      (innerLoop (s1.getD i 0) s2 v0 len2 0 (v1.set 0 (i + 1)))
      (by rw [memcpy_length _ _ _ (by omega) (by omega)]; exact hlen)
      (by rw [memcpy_length _ _ _ (by omega) (by omega)]; omega)
      (by
        intro k hk
        rw [memcpy_getD _ _ _ _ (by omega) (by omega)]
        exact hin.2 k (by omega))
      k hk
    rw [this]
    congr 1
    omega

/-- the two-row program computes the recurrence on the lengths it ends up with: `L2` is
the capped `len2`, which must not be negative, and `L1` the number of rounds of the outer
loop -/
theorem levenshtein_distance_eq_spec_of_len (s1 s2 : List Nat) (L1 L2 : Nat)
    (h1 : (if toInt s1.length > (MAX_STR_LEN : Int) then (MAX_STR_LEN : Int)
      else toInt s1.length).toNat = L1)
    (h2 : (if toInt s2.length > (MAX_STR_LEN : Int) then (MAX_STR_LEN : Int)
      else toInt s2.length) = (L2 : Int)) :
    levenshtein_distance s1 s2 = specEditDistance s1 s2 L1 L2 := by
  have hle : L2 ≤ 256 := by
    have : (L2 : Int) ≤ 256 := by
      rw [← h2]
      unfold MAX_STR_LEN
      split <;> omega
    omega
  unfold levenshtein_distance
  simp only [h1, h2]
  have ht : ((L2 : Int) + 1).toNat = L2 + 1 := by omega
  rw [ht]
  have hrep : (List.replicate (MAX_STR_LEN + 1) 0).length = 257 := by
    rw [List.length_replicate]; rfl
  have hinit := initLoop_spec (L2 + 1) 0 (List.replicate (MAX_STR_LEN + 1) 0)
    (by omega) (fun k hk => absurd hk (Nat.not_lt_zero k))
  have := outerLoop_spec s1 s2 L2 hle L1 0
    (initLoop (L2 + 1) 0 (List.replicate (MAX_STR_LEN + 1) 0))
    (List.replicate (MAX_STR_LEN + 1) 0)
    (by omega) (by omega)
    (by intro k hk; rw [hinit.2 k (by omega), specEditDistance_zero_left])
    L2 (le_refl _)
  unfold readInt
  rw [if_pos (by omega)]
  have ht2 : (L2 : Int).toNat = L2 := by omega
  rw [ht2, this]
  congr 1
  omega

/-- the two-row program computes the recurrence on the capped lengths, for strings whose
lengths fit `int` -/
theorem levenshtein_distance_eq_spec (s1 s2 : List Nat) (h1 : s1.length < 2147483648)
    (h2 : s2.length < 2147483648) :
    levenshtein_distance s1 s2 =
      specEditDistance s1 s2 (min s1.length MAX_STR_LEN) (min s2.length MAX_STR_LEN) := by
  apply levenshtein_distance_eq_spec_of_len
  · rw [cap_of_lt h1]; omega
  · exact cap_of_lt h2

theorem specEditDistance_ge_diff (a b : List Nat) :
    ∀ i j, i ≤ specEditDistance a b i j + j ∧ j ≤ specEditDistance a b i j + i := by
  intro i
  induction i with
  | zero => intro j; rw [specEditDistance_zero_left]; omega
  | succ i ihi =>
    intro j
    induction j with
    | zero => rw [specEditDistance_zero_right]; omega
    | succ j ihj =>
      rw [specEditDistance_succ_succ]
      have h1 := ihi (j + 1)
      have h2 := ihi j
      split <;> omega

theorem specEditDistance_eq_zero (a b : List Nat) :
    ∀ i j, i ≤ a.length → j ≤ b.length → specEditDistance a b i j = 0 → i = j ∧ a.take i = b.take j := by
  intro i
  induction i with
  | zero =>
    intro j _ _ h
    rw [specEditDistance_zero_left] at h
    subst h
    simp
  | succ i ih =>
    intro j hi hj h
    cases j with
    | zero => rw [specEditDistance_zero_right] at h; omega
    | succ j =>
      rw [specEditDistance_succ_succ] at h
      by_cases hc : a.getD i 0 = b.getD j 0
      · rw [if_pos hc] at h
        have h0 : specEditDistance a b i j = 0 := by omega
        obtain ⟨hij, ht⟩ := ih j (by omega) (by omega) h0
        subst hij
        refine ⟨rfl, ?_⟩
        rw [List.take_succ, List.take_succ, ht]
        have ha : a[i]? = some (a.getD i 0) := by
          rw [List.getD_eq_getElem?_getD, List.getElem?_eq_getElem (by omega)]; rfl
        have hb : b[i]? = some (b.getD i 0) := by
          rw [List.getD_eq_getElem?_getD, List.getElem?_eq_getElem (by omega)]; rfl
        rw [ha, hb, hc]
      · rw [if_neg hc] at h
        omega

/-- distance zero forces equality (for strings within the cap) -/
theorem levenshtein_distance_eq_zero (a b : List Nat) (ha : a.length ≤ MAX_STR_LEN)
    (hb : b.length ≤ MAX_STR_LEN) (h : levenshtein_distance a b = 0) : a = b := by
  have ha2 : a.length ≤ MAX_STR_LEN := ha
  have hb2 : b.length ≤ MAX_STR_LEN := hb
  rw [levenshtein_distance_eq_spec a b (fits_of_le ha) (fits_of_le hb), Nat.min_eq_left ha2,
    Nat.min_eq_left hb2] at h
  have := (specEditDistance_eq_zero a b a.length b.length (le_refl _) (le_refl _) h).2
  simpa using this

theorem specEditDistance_diag_le (a b : List Nat) (i j : Nat) :
    ∀ n, (∀ k, k < n → a.getD (i + k) 0 = b.getD (j + k) 0) →
      specEditDistance a b (i + n) (j + n) ≤ specEditDistance a b i j := by
  intro n
  induction n with
  | zero => intro _; exact le_refl _
  | succ n ih =>
    intro h
    have h1 := ih (fun k hk => h k (by omega))
    have h2 := h n (by omega)
    rw [← Nat.add_assoc, ← Nat.add_assoc, specEditDistance_succ_succ, if_pos h2]
    omega

theorem specEditDistance_absent (a b : List Nat) (j : Nat) :
    ∀ i, (∀ k, k < i → a.getD k 0 ≠ b.getD j 0) → i + 1 ≤ specEditDistance a b i (j + 1) + (j + 1) := by
  intro i
  induction i with
  | zero => intro _; rw [specEditDistance_zero_left]; omega
  | succ i ih =>
    intro h
    have h1 := ih (fun k hk => h k (by omega))
    have h2 := (specEditDistance_ge_diff a b (i + 1) j).1
    have h3 := (specEditDistance_ge_diff a b i j).1
    rw [specEditDistance_succ_succ, if_neg (h i (by omega))]
    omega

theorem frontEditDistance_nil_left (b : List Nat) : frontEditDistance [] b = b.length := by
  rw [frontEditDistance]

theorem frontEditDistance_nil_right (a : List Nat) : frontEditDistance a [] = a.length := by
  cases a with
  | nil => rw [frontEditDistance]
  | cons x xs => rw [frontEditDistance]; rfl

theorem frontEditDistance_cons_cons (x y : Nat) (xs ys : List Nat) :
    frontEditDistance (x :: xs) (y :: ys) =
      min (min (frontEditDistance xs (y :: ys) + 1) (frontEditDistance (x :: xs) ys + 1))
        (frontEditDistance xs ys + (if x = y then 0 else 1)) := by
  rw [frontEditDistance]

theorem frontEditDistance_self (a : List Nat) : frontEditDistance a a = 0 := by
  induction a with
  | nil => rw [frontEditDistance_nil_left]; rfl
  | cons x xs ih => rw [frontEditDistance_cons_cons, ih, if_pos rfl]; omega

/-- the prefix recurrence is the front recurrence on the reversed prefixes -/
theorem specEditDistance_eq_front (a b : List Nat) :
    ∀ i j, i ≤ a.length → j ≤ b.length →
      specEditDistance a b i j = frontEditDistance (a.take i).reverse (b.take j).reverse := by
  have hsnoc : ∀ (l : List Nat) (k : Nat), k < l.length →
      (l.take (k + 1)).reverse = l.getD k 0 :: (l.take k).reverse := by
    intro l k hk
    rw [List.take_succ, List.getD_eq_getElem?_getD, List.getElem?_eq_getElem hk]
    simp
  intro i
  induction i with
  | zero =>
    intro j _ hj
    rw [specEditDistance_zero_left]
    simp [frontEditDistance_nil_left, hj]
  | succ i ihi =>
    intro j hi hj
    induction j with
    | zero =>
      rw [specEditDistance_zero_right]
      simp [frontEditDistance_nil_right]
      omega
    | succ j ihj =>
      rw [specEditDistance_succ_succ, hsnoc a i (by omega), hsnoc b j (by omega), frontEditDistance_cons_cons,
        ← hsnoc a i (by omega), ← hsnoc b j (by omega),
        ihi (j + 1) (by omega) hj, ihj (by omega), ihi j (by omega) (by omega)]

theorem editStep_cons (x : Nat) {a b : List Nat} (h : EditStep a b) : EditStep (x :: a) (x :: b) := by
  cases h with
  | insert p q c => exact EditStep.insert (x :: p) q c
  | delete p q c => exact EditStep.delete (x :: p) q c
  | substitute p q c d => exact EditStep.substitute (x :: p) q c d

theorem editsIn_cons (x : Nat) {n : Nat} {a b : List Nat} (h : EditsIn n a b) :
    EditsIn n (x :: a) (x :: b) := by
  induction h with
  | done a => exact EditsIn.done _
  | step hs _ ih => exact EditsIn.step (editStep_cons x hs) ih

theorem editStep_reverse {a b : List Nat} (h : EditStep a b) : EditStep a.reverse b.reverse := by
  cases h with
  | insert p q c =>
    have := EditStep.insert q.reverse p.reverse c
    simpa using this
  | delete p q c =>
    have := EditStep.delete q.reverse p.reverse c
    simpa using this
  | substitute p q c d =>
    have := EditStep.substitute q.reverse p.reverse c d
    simpa using this

theorem editsIn_reverse {n : Nat} {a b : List Nat} (h : EditsIn n a b) :
    EditsIn n a.reverse b.reverse := by
  induction h with
  | done a => exact EditsIn.done _
  | step hs _ ih => exact EditsIn.step (editStep_reverse hs) ih

theorem editsIn_frontEditDistance : ∀ (a b : List Nat), EditsIn (frontEditDistance a b) a b := by
  intro a
  induction a with
  | nil =>
    intro b
    induction b with
    | nil => rw [frontEditDistance_nil_left]; exact EditsIn.done _
    | cons y ys ih =>
      rw [frontEditDistance_nil_left] at ih ⊢
      exact EditsIn.step (EditStep.insert [] [] y) (editsIn_cons y ih)
  | cons x xs iha =>
    intro b
    induction b with
    | nil =>
      rw [frontEditDistance_nil_right]
      have h := iha []
      rw [frontEditDistance_nil_right] at h
      exact EditsIn.step (EditStep.delete [] xs x) h
    | cons y ys ihb =>
      rw [frontEditDistance_cons_cons]
      have hdel : EditsIn (frontEditDistance xs (y :: ys) + 1) (x :: xs) (y :: ys) :=
        EditsIn.step (EditStep.delete [] xs x) (iha (y :: ys))
      have hins : EditsIn (frontEditDistance (x :: xs) ys + 1) (x :: xs) (y :: ys) :=
        EditsIn.step (EditStep.insert [] (x :: xs) y) (editsIn_cons y ihb)
      have hsub : EditsIn (frontEditDistance xs ys + (if x = y then 0 else 1)) (x :: xs) (y :: ys) := by
        by_cases hxy : x = y
        · subst hxy
          rw [if_pos rfl]
          exact editsIn_cons x (iha ys)
        · rw [if_neg hxy]
          exact EditsIn.step (EditStep.substitute [] xs x y) (editsIn_cons y (iha ys))
      rcases Nat.le_total (min (frontEditDistance xs (y :: ys) + 1) (frontEditDistance (x :: xs) ys + 1))
          (frontEditDistance xs ys + (if x = y then 0 else 1)) with h | h
      · rw [Nat.min_eq_left h]
        rcases Nat.le_total (frontEditDistance xs (y :: ys) + 1) (frontEditDistance (x :: xs) ys + 1) with h2 | h2
        · rw [Nat.min_eq_left h2]; exact hdel
        · rw [Nat.min_eq_right h2]; exact hins
      · rw [Nat.min_eq_right h]; exact hsub

theorem frontEditDistance_cons_left_le (x : Nat) (q c : List Nat) : frontEditDistance (x :: q) c ≤ frontEditDistance q c + 1 := by
  cases c with
  | nil => rw [frontEditDistance_nil_right, frontEditDistance_nil_right]; simp only [List.length_cons]; omega
  | cons y ys => rw [frontEditDistance_cons_cons]; omega

theorem frontEditDistance_cons_right_le (y : Nat) (a c : List Nat) : frontEditDistance a (y :: c) ≤ frontEditDistance a c + 1 := by
  cases a with
  | nil => rw [frontEditDistance_nil_left, frontEditDistance_nil_left]; simp only [List.length_cons]; omega
  | cons x xs => rw [frontEditDistance_cons_cons]; omega

theorem frontEditDistance_le_cons_left (x : Nat) (q : List Nat) : ∀ c, frontEditDistance q c ≤ frontEditDistance (x :: q) c + 1 := by
  intro c
  induction c with
  | nil => rw [frontEditDistance_nil_right, frontEditDistance_nil_right]; simp only [List.length_cons]; omega
  | cons y ys ih =>
    have h1 := frontEditDistance_cons_right_le y q ys
    rw [frontEditDistance_cons_cons]
    split <;> omega

theorem frontEditDistance_subst_left (x y : Nat) (q : List Nat) : ∀ c, frontEditDistance (x :: q) c ≤ frontEditDistance (y :: q) c + 1 := by
  intro c
  induction c with
  | nil => rw [frontEditDistance_nil_right, frontEditDistance_nil_right]; simp only [List.length_cons]; omega
  | cons z zs ih =>
    have h1 := frontEditDistance_cons_left_le x q (z :: zs)
    have h2 := frontEditDistance_cons_right_le z (x :: q) zs
    have h3 : frontEditDistance (x :: q) (z :: zs) ≤ frontEditDistance q zs + 1 := by
      rw [frontEditDistance_cons_cons]; split <;> omega
    rw [frontEditDistance_cons_cons y z q zs]
    split <;> omega

theorem frontEditDistance_append_left {A B : List Nat} (hbase : ∀ c, frontEditDistance A c ≤ frontEditDistance B c + 1) :
    ∀ (p c : List Nat), frontEditDistance (p ++ A) c ≤ frontEditDistance (p ++ B) c + 1 := by
  intro p
  induction p with
  | nil => intro c; exact hbase c
  | cons h p ihp =>
    intro c
    induction c with
    | nil =>
      have := hbase []
      rw [frontEditDistance_nil_right, frontEditDistance_nil_right] at this
      rw [frontEditDistance_nil_right, frontEditDistance_nil_right]
      simp only [List.length_append, List.length_cons]
      omega
    | cons z zs ihc =>
      have h1 := ihp (z :: zs)
      have h2 := ihp zs
      simp only [List.cons_append] at ihc ⊢
      rw [frontEditDistance_cons_cons, frontEditDistance_cons_cons]
      split <;> omega

theorem frontEditDistance_step {a b : List Nat} (h : EditStep a b) (c : List Nat) : frontEditDistance a c ≤ frontEditDistance b c + 1 := by
  cases h with
  | insert p q x => exact frontEditDistance_append_left (frontEditDistance_le_cons_left x q) p c
  | delete p q x => exact frontEditDistance_append_left (frontEditDistance_cons_left_le x q) p c
  | substitute p q x y => exact frontEditDistance_append_left (frontEditDistance_subst_left x y q) p c

theorem frontEditDistance_le_of_editsIn {n : Nat} {a b : List Nat} (h : EditsIn n a b) : frontEditDistance a b ≤ n := by
  induction h with
  | done a => rw [frontEditDistance_self]
  | step hs _ ih => exact le_trans (frontEditDistance_step hs _) (by omega)

/-- the value of the recurrence is reached by some sequence of edits and by no shorter one -/
theorem specEditDistance_is_least (a b : List Nat) :
    EditsIn (specEditDistance a b a.length b.length) a b ∧
      ∀ n, EditsIn n a b → specEditDistance a b a.length b.length ≤ n := by
  rw [specEditDistance_eq_front a b _ _ (le_refl _) (le_refl _), List.take_length, List.take_length]
  constructor
  · have := editsIn_reverse (editsIn_frontEditDistance a.reverse b.reverse)
    simpa using this
  · intro n h
    exact frontEditDistance_le_of_editsIn (editsIn_reverse h)

/-! ## Lemmas on `calculate_score` and on the long inputs used below -/

theorem getD_replicate_append_lt (m x y k : Nat) (h : k < m) :
    (List.replicate m x ++ [y]).getD k 0 = x := by
  rw [List.getD_eq_getElem?_getD, List.getElem?_append_left (by simpa using h)]
  simp [List.getElem?_replicate, h]

theorem getD_replicate_append_eq (m x y : Nat) :
    (List.replicate m x ++ [y]).getD m 0 = y := by
  rw [List.getD_eq_getElem?_getD, List.getElem?_append_right (by simp)]
  simp

theorem mem_replicate_append {m x y c : Nat} (h : c ∈ List.replicate m x ++ [y]) :
    c = x ∨ c = y := by
  rcases List.mem_append.1 h with h | h
  · exact Or.inl (List.eq_of_mem_replicate h)
  · exact Or.inr (by simpa using h)

theorem calculate_score_some (u c : List Nat) (F : Int) :
    calculate_score (some u) (some c) F =
      if normalize_string u (MAX_STR_LEN + 1) = normalize_string c (MAX_STR_LEN + 1) then F
      else if levenshtein_distance (normalize_string u (MAX_STR_LEN + 1))
          (normalize_string c (MAX_STR_LEN + 1)) > (normalize_string c (MAX_STR_LEN + 1)).length / 2
        then 0
      else if levenshtein_distance (normalize_string u (MAX_STR_LEN + 1))
          (normalize_string c (MAX_STR_LEN + 1)) ≤
            allowedErrors (normalize_string c (MAX_STR_LEN + 1)).length then F
      else 0 := rfl

theorem plain_pad {m y : Nat} (hy : isspace y = false ∧ tolower y = y) :
    ∀ c, c ∈ List.replicate m 97 ++ [y] → isspace c = false ∧ tolower c = c := by
  intro c hc
  rcases mem_replicate_append hc with rfl | rfl
  · decide
  · exact hy

theorem normalize_pad {m y : Nat} (hy : isspace y = false ∧ tolower y = y) (hm : m < 256) :
    normalize_string (List.replicate m 97 ++ [y]) (MAX_STR_LEN + 1) = List.replicate m 97 ++ [y] := by
  apply normalize_string_of_plain _ (plain_pad hy)
  simp only [List.length_append, List.length_replicate, List.length_singleton, MAX_STR_LEN]
  omega

theorem normalize_untruncated_pad {m y : Nat} (hy : isspace y = false ∧ tolower y = y) :
    normalize_untruncated (List.replicate m 97 ++ [y]) = List.replicate m 97 ++ [y] := by
  apply normalize_string_of_plain _ (plain_pad hy)
  omega

theorem dist_pad_le :
    levenshtein_distance (List.replicate 255 97 ++ [120]) (List.replicate 204 97 ++ [120]) ≤ 51 := by
  rw [levenshtein_distance_eq_spec _ _
    (by simp only [List.length_append, List.length_replicate, List.length_singleton]; omega)
    (by simp only [List.length_append, List.length_replicate, List.length_singleton]; omega)]
  simp only [List.length_append, List.length_replicate, List.length_singleton, MAX_STR_LEN]
  have := specEditDistance_diag_le (List.replicate 255 97 ++ [120]) (List.replicate 204 97 ++ [120]) 51 0 205
    (by
      intro k hk
      by_cases h : k < 204
      · rw [getD_replicate_append_lt _ _ _ _ (by omega), getD_replicate_append_lt _ _ _ _ (by omega)]
      · have e : k = 204 := by omega
        subst e
        exact (getD_replicate_append_eq 255 97 120).trans (getD_replicate_append_eq 204 97 120).symm)
  rw [specEditDistance_zero_right] at this
  exact this

theorem dist_pad_ge :
    52 ≤ levenshtein_distance (List.replicate 255 97 ++ [121]) (List.replicate 204 97 ++ [120]) := by
  rw [levenshtein_distance_eq_spec _ _
    (by simp only [List.length_append, List.length_replicate, List.length_singleton]; omega)
    (by simp only [List.length_append, List.length_replicate, List.length_singleton]; omega)]
  simp only [List.length_append, List.length_replicate, List.length_singleton, MAX_STR_LEN]
  have := specEditDistance_absent (List.replicate 255 97 ++ [121]) (List.replicate 204 97 ++ [120]) 204 256
    (by
      intro k hk
      rw [getD_replicate_append_eq]
      by_cases h : k < 255
      · rw [getD_replicate_append_lt _ _ _ _ h]; decide
      · have e : k = 255 := by omega
        subst e
        rw [getD_replicate_append_eq]; decide)
  have e1 : min (255 + 1) 256 = 256 := by decide
  have e2 : min (204 + 1) 256 = 204 + 1 := by decide
  rw [e1, e2]
  omega

theorem pad_ne (x y : Nat) :
    List.replicate 255 97 ++ [x] ≠ List.replicate 204 97 ++ [y] := by
  intro h
  have := congrArg List.length h
  simp only [List.length_append, List.length_replicate, List.length_singleton] at this
  omega

/-! ## Lemmas on the output shape, symmetry, the allowance and array bounds -/

theorem collapsed_mem {l : List Nat} :
    ∀ {p : Bool}, Collapsed p l → ∀ c, c ∈ l → c = 32 ∨ (isspace c = false ∧ tolower c = c) := by
  induction l with
  | nil => intro _ _ c hc; simp at hc
  | cons x xs ih =>
    intro p h c hc
    simp only [Collapsed] at h
    by_cases h32 : x = 32
    · rw [if_pos h32] at h
      rcases List.mem_cons.1 hc with rfl | hc
      · exact Or.inl h32
      · exact ih h.2 c hc
    · rw [if_neg h32] at h
      rcases List.mem_cons.1 hc with rfl | hc
      · exact Or.inr h.1
      · exact ih h.2 c hc

theorem collapsed_no_leading_space (q : List Nat) : ¬ Collapsed true (32 :: q) := by
  intro h
  simp [Collapsed] at h

theorem not_collapsed_inner_spaces (p q : List Nat) : ∀ b, ¬ Collapsed b (p ++ 32 :: 32 :: q) := by
  induction p with
  | nil => intro b h; simp [Collapsed] at h
  | cons c cs ih =>
    intro b h
    simp only [List.cons_append, Collapsed] at h
    by_cases h32 : c = 32
    · rw [if_pos h32] at h; exact ih _ h.2
    · rw [if_neg h32] at h; exact ih _ h.2

theorem normalize_string_no_trailing_space (s : List Nat) (n : Nat) (p : List Nat) :
    normalize_string s n ≠ p ++ [32] := by
  intro h
  have hid : dropTrailingSpace (normalize_string s n) = normalize_string s n := by
    rw [normalize_string_eq]
    exact dropTrailingSpace_idem (collapsed_take _ (collapsed_collapse_skip s))
  rw [h, dropTrailingSpace_snoc, if_pos rfl] at hid
  have := congrArg List.length hid
  simp at this

theorem skipLeading_of_space {s : List Nat} (h : ∀ w, w ∈ s → isspace w = true) :
    skipLeading s = [] := by
  have := skipLeading_append_of_space [] h
  simpa [skipLeading] using this

theorem normalize_string_of_space {s : List Nat} (n : Nat) (h : ∀ w, w ∈ s → isspace w = true) :
    normalize_string s n = [] := by
  rw [normalize_string_eq, skipLeading_of_space h]
  simp [collapse, dropTrailingSpace_nil]

theorem specEditDistance_symm (a b : List Nat) :
    ∀ i j, specEditDistance a b i j = specEditDistance b a j i := by
  intro i
  induction i with
  | zero => intro j; rw [specEditDistance_zero_left, specEditDistance_zero_right]
  | succ i ihi =>
    intro j
    induction j with
    | zero => rw [specEditDistance_zero_left, specEditDistance_zero_right]
    | succ j ihj =>
      rw [specEditDistance_succ_succ, specEditDistance_succ_succ, ihi (j + 1), ihj, ihi j]
      by_cases h : a.getD i 0 = b.getD j 0
      · rw [if_pos h, if_pos h.symm]; omega
      · rw [if_neg h, if_neg (fun e => h e.symm)]; omega

theorem levenshtein_distance_symm (a b : List Nat) (ha : a.length < 2147483648)
    (hb : b.length < 2147483648) :
    levenshtein_distance a b = levenshtein_distance b a := by
  rw [levenshtein_distance_eq_spec a b ha hb, levenshtein_distance_eq_spec b a hb ha,
    specEditDistance_symm]

theorem levenshtein_distance_self (a : List Nat) (ha : a.length < 2147483648) :
    levenshtein_distance a a = 0 := by
  rw [levenshtein_distance_eq_spec a a ha ha,
    specEditDistance_eq_front a a _ _ (Nat.min_le_left _ _) (Nat.min_le_left _ _),
    frontEditDistance_self]

theorem levenshtein_distance_nil_left (b : List Nat) (hb : b.length ≤ MAX_STR_LEN) :
    levenshtein_distance [] b = b.length := by
  rw [levenshtein_distance_eq_spec [] b (by decide) (fits_of_le hb), Nat.min_eq_left hb]
  exact specEditDistance_zero_left _ _ _

theorem levenshtein_distance_nil_right (a : List Nat) (ha : a.length ≤ MAX_STR_LEN) :
    levenshtein_distance a [] = a.length := by
  rw [levenshtein_distance_symm a [] (fits_of_le ha) (by decide),
    levenshtein_distance_nil_left a ha]

theorem allowedErrors_le_half (len : Nat) : allowedErrors len ≤ len / 2 := by
  unfold allowedErrors
  split
  · exact Nat.zero_le _
  · split <;> omega

theorem calculate_score_noclamp_some (u c : List Nat) (F : Int) :
    calculate_score_noclamp (some u) (some c) F =
      if normalize_string u (MAX_STR_LEN + 1) = normalize_string c (MAX_STR_LEN + 1) then F
      else if levenshtein_distance (normalize_string u (MAX_STR_LEN + 1))
          (normalize_string c (MAX_STR_LEN + 1)) ≤
            allowedErrors (normalize_string c (MAX_STR_LEN + 1)).length then F
      else 0 := rfl

theorem calculate_score_eq_noclamp (user correct : Option (List Nat)) (F : Int) :
    calculate_score user correct F = calculate_score_noclamp user correct F := by
  cases user with
  | none => cases correct <;> rfl
  | some u =>
    cases correct with
    | none => rfl
    | some c =>
      rw [calculate_score_some, calculate_score_noclamp_some]
      have h := allowedErrors_le_half (normalize_string c (MAX_STR_LEN + 1)).length
      split
      · rfl
      · split
        · rw [if_neg (by omega)]
        · rfl

theorem writeAt_outside (v : List Nat) (i x : Nat) (h : v.length ≤ i) : writeAt v i x = none := by
  unfold writeAt
  rw [if_neg (by omega)]

/-- C1: for non-null inputs whose normalized forms differ, `calculate_score` returns
`full_score` when the distance of the normalized strings is at most the allowance and at
most half the normalized correct length, and `0` otherwise; the allowance is `0` up to
length 3, `1` for lengths 4 to 8 and `len / 4` above 8. -/
theorem C1_fuzzy_decision (user correct : List Nat) (full_score : Int)
    (hne : normalize_string user (MAX_STR_LEN + 1) ≠ normalize_string correct (MAX_STR_LEN + 1)) :
    calculate_score (some user) (some correct) full_score =
      (if levenshtein_distance (normalize_string user (MAX_STR_LEN + 1))
            (normalize_string correct (MAX_STR_LEN + 1)) ≤
              allowedErrors (normalize_string correct (MAX_STR_LEN + 1)).length ∧
          levenshtein_distance (normalize_string user (MAX_STR_LEN + 1))
            (normalize_string correct (MAX_STR_LEN + 1)) ≤
              (normalize_string correct (MAX_STR_LEN + 1)).length / 2
        then full_score else 0) ∧
    (∀ len : Nat, (len ≤ 3 → allowedErrors len = 0) ∧
      (4 ≤ len ∧ len ≤ 8 → allowedErrors len = 1) ∧
      (8 < len → allowedErrors len = len / 4)) := by
  refine ⟨?_, ?_⟩
  · rw [calculate_score_some, if_neg hne]
    by_cases h1 : levenshtein_distance (normalize_string user (MAX_STR_LEN + 1))
        (normalize_string correct (MAX_STR_LEN + 1)) >
          (normalize_string correct (MAX_STR_LEN + 1)).length / 2
    · rw [if_pos h1, if_neg (by omega)]
    · rw [if_neg h1]
      by_cases h2 : levenshtein_distance (normalize_string user (MAX_STR_LEN + 1))
          (normalize_string correct (MAX_STR_LEN + 1)) ≤
            allowedErrors (normalize_string correct (MAX_STR_LEN + 1)).length
      · rw [if_pos h2, if_pos ⟨h2, by omega⟩]
      · rw [if_neg h2, if_neg (fun h => h2 h.1)]
  · intro len
    unfold allowedErrors
    refine ⟨fun h => by rw [if_pos h], fun h => ?_, fun h => ?_⟩
    · rw [if_neg (by omega), if_pos h.2]
    · rw [if_neg (by omega), if_neg (by omega)]

/-- C1 at user "gap", correct "gpa", full score 5. -/
theorem C1_fuzzy_decision_witness :
    normalize_string [103, 97, 112] (MAX_STR_LEN + 1) ≠
        normalize_string [103, 112, 97] (MAX_STR_LEN + 1) ∧
      calculate_score (some [103, 97, 112]) (some [103, 112, 97]) 5 = 0 := by
  have hne : normalize_string [103, 97, 112] (MAX_STR_LEN + 1) ≠
      normalize_string [103, 112, 97] (MAX_STR_LEN + 1) := by decide
  refine ⟨hne, ?_⟩
  rw [(C1_fuzzy_decision [103, 97, 112] [103, 112, 97] 5 hne).1]
  decide

/-- C2: for strings of length at most 256 the two-row program returns the value
`d[len a][len b]` of the recurrence `d[i][j] = min(d[i-1][j]+1, d[i][j-1]+1,
d[i-1][j-1]+cost)` with `d[i][0] = i` and `d[0][j] = j`, and this value is the minimum
number of single-character insertions, deletions and substitutions that transform `a`
into `b`: some sequence of that many edits does it, and no shorter one. -/
theorem C2_levenshtein_is_recurrence (a b : List Nat) (ha : a.length ≤ 256)
    (hb : b.length ≤ 256) :
    levenshtein_distance a b = specEditDistance a b a.length b.length ∧
      EditsIn (levenshtein_distance a b) a b ∧
      ∀ n, EditsIn n a b → levenshtein_distance a b ≤ n := by
  have ha2 : a.length ≤ MAX_STR_LEN := ha
  have hb2 : b.length ≤ MAX_STR_LEN := hb
  have h : levenshtein_distance a b = specEditDistance a b a.length b.length := by
    rw [levenshtein_distance_eq_spec a b (fits_of_le ha2) (fits_of_le hb2),
      Nat.min_eq_left ha2, Nat.min_eq_left hb2]
  rw [h]
  exact ⟨rfl, specEditDistance_is_least a b⟩

/-- C2 at "kitten" and "sitting". -/
theorem C2_levenshtein_is_recurrence_witness :
    ([107, 105, 116, 116, 101, 110] : List Nat).length ≤ 256 ∧
      ([115, 105, 116, 116, 105, 110, 103] : List Nat).length ≤ 256 ∧
      (levenshtein_distance [107, 105, 116, 116, 101, 110] [115, 105, 116, 116, 105, 110, 103] =
          specEditDistance [107, 105, 116, 116, 101, 110] [115, 105, 116, 116, 105, 110, 103]
            ([107, 105, 116, 116, 101, 110] : List Nat).length
            ([115, 105, 116, 116, 105, 110, 103] : List Nat).length ∧
        EditsIn
          (levenshtein_distance [107, 105, 116, 116, 101, 110] [115, 105, 116, 116, 105, 110, 103])
          [107, 105, 116, 116, 101, 110] [115, 105, 116, 116, 105, 110, 103] ∧
        ∀ n, EditsIn n [107, 105, 116, 116, 101, 110] [115, 105, 116, 116, 105, 110, 103] →
          levenshtein_distance [107, 105, 116, 116, 101, 110]
            [115, 105, 116, 116, 105, 110, 103] ≤ n) :=
  ⟨by decide, by decide,
    C2_levenshtein_is_recurrence [107, 105, 116, 116, 101, 110]
      [115, 105, 116, 116, 105, 110, 103] (by decide) (by decide)⟩

/-- C3: `normalize_string` with the destination size 257 of `calculate_score` is
idempotent on every input, truncated or not. -/
theorem C3_normalize_idempotent (s : List Nat) :
    normalize_string (normalize_string s (MAX_STR_LEN + 1)) (MAX_STR_LEN + 1) =
      normalize_string s (MAX_STR_LEN + 1) :=
  normalize_string_idem s (MAX_STR_LEN + 1)

/-- C4: `calculate_score(s, s, full_score)` returns `full_score` for every non-null `s`
and every integer `full_score`. -/
theorem C4_exact_match (s : List Nat) (full_score : Int) :
    calculate_score (some s) (some s) full_score = full_score := by
  rw [calculate_score_some, if_pos rfl]

/-- C5: a null user answer or a null correct answer gives 0, whatever the other
arguments are. -/
theorem C5_null_safety (user correct : Option (List Nat)) (full_score : Int) :
    calculate_score none correct full_score = 0 ∧ calculate_score user none full_score = 0 := by
  constructor
  · cases correct <;> rfl
  · cases user <;> rfl

/-- C6: the result of `calculate_score` is `0` or `full_score`. -/
theorem C6_result_range (user correct : Option (List Nat)) (full_score : Int) :
    calculate_score user correct full_score = 0 ∨
      calculate_score user correct full_score = full_score := by
  cases user with
  | none => left; cases correct <;> rfl
  | some u =>
    cases correct with
    | none => left; rfl
    | some c =>
      rw [calculate_score_some]
      split
      · right; rfl
      · split
        · left; rfl
        · split
          · right; rfl
          · left; rfl

/-- C7: when the normalized correct answer has length at most 3 and `full_score` is not
zero, `calculate_score` returns `full_score` exactly when the normalized strings are equal;
an unequal pair has distance at least 1 and scores 0. -/
theorem C7_short_exact (user correct : List Nat) (full_score : Int)
    (hlen : (normalize_string correct (MAX_STR_LEN + 1)).length ≤ 3) (hF : full_score ≠ 0) :
    (calculate_score (some user) (some correct) full_score = full_score ↔
        normalize_string user (MAX_STR_LEN + 1) = normalize_string correct (MAX_STR_LEN + 1)) ∧
      (normalize_string user (MAX_STR_LEN + 1) ≠ normalize_string correct (MAX_STR_LEN + 1) →
        1 ≤ levenshtein_distance (normalize_string user (MAX_STR_LEN + 1))
            (normalize_string correct (MAX_STR_LEN + 1)) ∧
          calculate_score (some user) (some correct) full_score = 0) := by
  have key : normalize_string user (MAX_STR_LEN + 1) ≠ normalize_string correct (MAX_STR_LEN + 1) →
      1 ≤ levenshtein_distance (normalize_string user (MAX_STR_LEN + 1))
          (normalize_string correct (MAX_STR_LEN + 1)) ∧
        calculate_score (some user) (some correct) full_score = 0 := by
    intro hne
    have hd : 1 ≤ levenshtein_distance (normalize_string user (MAX_STR_LEN + 1))
        (normalize_string correct (MAX_STR_LEN + 1)) := by
      rcases Nat.eq_zero_or_pos (levenshtein_distance (normalize_string user (MAX_STR_LEN + 1))
        (normalize_string correct (MAX_STR_LEN + 1))) with h0 | hpos
      · exact absurd (levenshtein_distance_eq_zero _ _ (normalize_string_length_le _ _)
          (normalize_string_length_le _ _) h0) hne
      · exact hpos
    refine ⟨hd, ?_⟩
    rw [calculate_score_some, if_neg hne]
    have ha : allowedErrors (normalize_string correct (MAX_STR_LEN + 1)).length = 0 := by
      unfold allowedErrors; rw [if_pos hlen]
    rw [ha]
    split
    · rfl
    · rw [if_neg (by omega)]
  refine ⟨⟨fun h => ?_, fun h => ?_⟩, key⟩
  · by_contra hne
    rw [(key hne).2] at h
    exact hF h.symm
  · rw [calculate_score_some, if_pos h]

/-- C7 at user "gap", correct "gpa", full score 5. -/
theorem C7_short_exact_witness :
    (normalize_string [103, 112, 97] (MAX_STR_LEN + 1)).length ≤ 3 ∧ (5 : Int) ≠ 0 ∧
      calculate_score (some [103, 97, 112]) (some [103, 112, 97]) 5 ≠ 5 := by
  have hlen : (normalize_string [103, 112, 97] (MAX_STR_LEN + 1)).length ≤ 3 := by decide
  have hF : (5 : Int) ≠ 0 := by decide
  refine ⟨hlen, hF, fun h => ?_⟩
  have := ((C7_short_exact [103, 97, 112] [103, 112, 97] 5 hlen hF).1).1 h
  exact absurd this (by decide)

/-- C8 as stated fails: 256 letters `a` normalize to a string of length 256, above 255. -/
theorem C8_counterexample :
    ¬ (∀ s : List Nat, (normalize_string s (MAX_STR_LEN + 1)).length ≤ 255) := by
  intro H
  have h := H (List.replicate 256 97)
  rw [normalize_string_of_plain (MAX_STR_LEN + 1)
    (fun c hc => by rw [List.eq_of_mem_replicate hc]; decide)
    (by rw [List.length_replicate]; decide), List.length_replicate] at h
  omega

/-- C8, amended: the normalized answer computed in `calculate_score` has length at most
`MAX_STR_LEN = 256` (the buffers have 257 bytes, the last one for the terminator). -/
theorem C8_normalized_length (s : List Nat) :
    0 ≤ (normalize_string s (MAX_STR_LEN + 1)).length ∧
      (normalize_string s (MAX_STR_LEN + 1)).length ≤ 256 :=
  ⟨Nat.zero_le _, normalize_string_length_le s (MAX_STR_LEN + 1)⟩

/-- C9 as stated fails: with `u` = 255 letters `a` then `x`, `u2` = 255 letters `a` then `y`
and `c` = 204 letters `a` then `x`, the untruncated normalized forms of `u` and `u2` agree on
their first 255 characters, yet `u` scores 1 (distance 51) and `u2` scores 0 (distance 52):
the 256th character is compared. -/
theorem C9_counterexample :
    ¬ (∀ (full_score : Int) (u u2 c : List Nat),
        (normalize_untruncated u).take 255 = (normalize_untruncated u2).take 255 →
        calculate_score (some u) (some c) full_score =
          calculate_score (some u2) (some c) full_score) := by
  intro H
  have h := H 1 (List.replicate 255 97 ++ [120]) (List.replicate 255 97 ++ [121])
    (List.replicate 204 97 ++ [120])
    (by
      rw [normalize_untruncated_pad (by decide), normalize_untruncated_pad (by decide),
        List.take_left' (List.length_replicate _ _), List.take_left' (List.length_replicate _ _)])
  rw [calculate_score_some, calculate_score_some, normalize_pad (by decide) (by decide),
    normalize_pad (by decide) (by decide), normalize_pad (by decide) (by decide),
    if_neg (pad_ne _ _), if_neg (pad_ne _ _)] at h
  have hlen : (List.replicate 204 97 ++ [120]).length = 205 := by
    simp only [List.length_append, List.length_replicate, List.length_singleton]
  rw [hlen] at h
  have h1 := dist_pad_le
  have h2 := dist_pad_ge
  have ha : allowedErrors 205 = 51 := by decide
  rw [ha] at h
  have hhalf : 205 / 2 = 102 := by decide
  rw [hhalf] at h
  rw [if_neg (by omega), if_pos h1] at h
  split at h
  · exact absurd h (by decide)
  · rw [if_neg (by omega)] at h
    exact absurd h (by decide)

/-- C9, amended: the decision depends on each input only through the first 256 characters
of its untruncated normalized form; user strings, and likewise correct strings, that agree
there get the same score. -/
theorem C9_truncation (full_score : Int) (u u2 c c2 : List Nat)
    (hu : (normalize_untruncated u).take 256 = (normalize_untruncated u2).take 256)
    (hc : (normalize_untruncated c).take 256 = (normalize_untruncated c2).take 256) :
    calculate_score (some u) (some c) full_score =
      calculate_score (some u2) (some c2) full_score := by
  have e : MAX_STR_LEN + 1 - 1 = 256 := rfl
  have h1 : normalize_string u (MAX_STR_LEN + 1) = normalize_string u2 (MAX_STR_LEN + 1) := by
    rw [normalize_string_eq_take, normalize_string_eq_take, e, hu]
  have h2 : normalize_string c (MAX_STR_LEN + 1) = normalize_string c2 (MAX_STR_LEN + 1) := by
    rw [normalize_string_eq_take, normalize_string_eq_take, e, hc]
  rw [calculate_score_some, calculate_score_some, h1, h2]

/-- C9, amended, at two user strings of 257 characters that differ in the last one. -/
theorem C9_truncation_witness :
    (normalize_untruncated (List.replicate 256 97 ++ [120])).take 256 =
        (normalize_untruncated (List.replicate 256 97 ++ [121])).take 256 ∧
      (normalize_untruncated [97]).take 256 = (normalize_untruncated [97]).take 256 ∧
      calculate_score (some (List.replicate 256 97 ++ [120])) (some [97]) 1 =
        calculate_score (some (List.replicate 256 97 ++ [121])) (some [97]) 1 := by
  have hu : (normalize_untruncated (List.replicate 256 97 ++ [120])).take 256 =
      (normalize_untruncated (List.replicate 256 97 ++ [121])).take 256 := by
    rw [normalize_untruncated_pad (by decide), normalize_untruncated_pad (by decide),
      List.take_left' (List.length_replicate _ _), List.take_left' (List.length_replicate _ _)]
  exact ⟨hu, rfl, C9_truncation 1 _ _ [97] [97] hu rfl⟩

/-- C10: if `t` is obtained from `s` by changing the case of ASCII letters, adding leading
or trailing whitespace, and replacing whitespace runs by non-empty whitespace runs, then
`calculate_score(t, s, full_score)` and `calculate_score(s, t, full_score)` both return
`full_score`. -/
theorem C10_case_and_spacing (s t : List Nat) (full_score : Int) (h : CaseSpaceVariant s t) :
    calculate_score (some t) (some s) full_score = full_score ∧
      calculate_score (some s) (some t) full_score = full_score := by
  have hn := normalize_string_variant h (MAX_STR_LEN + 1)
  constructor
  · rw [calculate_score_some, if_pos hn]
  · rw [calculate_score_some, if_pos hn.symm]

/-- C10 at `s` = "A B" and `t` = " a", tab, newline, "B". -/
theorem C10_case_and_spacing_witness :
    CaseSpaceVariant [65, 32, 66] [32, 97, 9, 10, 66] ∧
      calculate_score (some [32, 97, 9, 10, 66]) (some [65, 32, 66]) 7 = 7 ∧
      calculate_score (some [65, 32, 66]) (some [32, 97, 9, 10, 66]) 7 = 7 := by
  have hv : CaseSpaceVariant [65, 32, 66] [32, 97, 9, 10, 66] :=
    Relation.ReflTransGen.tail
      (Relation.ReflTransGen.tail
        (Relation.ReflTransGen.single
          (CaseSpaceStep.toLower [] [32, 66] 65 (by decide) (by decide)))
        (CaseSpaceStep.lead [97, 32, 66] 32 (by decide)))
      (CaseSpaceStep.run [32, 97] [66] [32] [9, 10] (by decide) (by decide) (by decide)
        (by decide))
  exact ⟨hv, C10_case_and_spacing _ _ 7 hv⟩

/-- C11: the output of `normalize_string` contains no upper-case ASCII letter and no
whitespace character other than the space, does not begin or end with a space, and has no
two consecutive spaces. -/
theorem C11_normalized_shape (s : List Nat) (dest_size : Nat) :
    (∀ c, c ∈ normalize_string s dest_size → ¬ (65 ≤ c ∧ c ≤ 90)) ∧
      (∀ c, c ∈ normalize_string s dest_size → isWhitespace c → c = 32) ∧
      (∀ q, normalize_string s dest_size ≠ 32 :: q) ∧
      (∀ p, normalize_string s dest_size ≠ p ++ [32]) ∧
      (∀ p q, normalize_string s dest_size ≠ p ++ 32 :: 32 :: q) := by
  have hc := collapsed_normalize s dest_size
  refine ⟨fun c hmem hup => ?_, fun c hmem hw => ?_, fun q h => ?_,
    normalize_string_no_trailing_space s dest_size, fun p q h => ?_⟩
  · rcases collapsed_mem hc c hmem with h32 | ⟨_, hl⟩
    · omega
    · unfold tolower at hl
      rw [if_pos hup] at hl
      omega
  · rcases collapsed_mem hc c hmem with h32 | ⟨hsp, _⟩
    · exact h32
    · rw [isspace_of_isWhitespace hw] at hsp
      cases hsp
  · rw [h] at hc
    exact collapsed_no_leading_space q hc
  · rw [h] at hc
    exact not_collapsed_inner_spaces p q true hc

/-- C13: the decision is not symmetric: with `a` = "abc", `b` = "abcd" and full score 1,
`calculate_score(a, b, 1)` is 1 (correct length 4 allows one error) while
`calculate_score(b, a, 1)` is 0 (correct length 3 allows none). -/
theorem C13_decision_asymmetric :
    calculate_score (some [97, 98, 99]) (some [97, 98, 99, 100]) 1 = 1 ∧
      calculate_score (some [97, 98, 99, 100]) (some [97, 98, 99]) 1 = 0 ∧
      ∃ (a b : List Nat) (F : Int),
        calculate_score (some a) (some b) F ≠ calculate_score (some b) (some a) F := by
  have h1 : calculate_score (some [97, 98, 99]) (some [97, 98, 99, 100]) 1 = 1 := by decide
  have h2 : calculate_score (some [97, 98, 99, 100]) (some [97, 98, 99]) 1 = 0 := by decide
  refine ⟨h1, h2, [97, 98, 99], [97, 98, 99, 100], 1, ?_⟩
  rw [h1, h2]
  decide

/-- C14: tier boundaries for a non-zero full score `F`. "gpa" against "gpa" scores `F` and
"gap" against "gpa" (distance 2) scores 0; against "campus", "campas" and "campuss" score
`F` and "campuses" scores 0; and when the normalized correct answer has length 12 the
allowance is 3, a user answer at distance exactly 3 scores `F` and one at distance 4
scores 0. -/
theorem C14_tier_boundaries (F : Int) (hF : F ≠ 0) :
    calculate_score (some [103, 112, 97]) (some [103, 112, 97]) F = F ∧
      (levenshtein_distance [103, 97, 112] [103, 112, 97] = 2 ∧
        calculate_score (some [103, 97, 112]) (some [103, 112, 97]) F = 0) ∧
      calculate_score (some [99, 97, 109, 112, 97, 115]) (some [99, 97, 109, 112, 117, 115]) F
        = F ∧
      calculate_score (some [99, 97, 109, 112, 117, 115, 115])
        (some [99, 97, 109, 112, 117, 115]) F = F ∧
      calculate_score (some [99, 97, 109, 112, 117, 115, 101, 115])
        (some [99, 97, 109, 112, 117, 115]) F = 0 ∧
      (∀ user correct : List Nat,
        (normalize_string correct (MAX_STR_LEN + 1)).length = 12 →
        allowedErrors (normalize_string correct (MAX_STR_LEN + 1)).length = 3 ∧
        (levenshtein_distance (normalize_string user (MAX_STR_LEN + 1))
            (normalize_string correct (MAX_STR_LEN + 1)) = 3 →
          calculate_score (some user) (some correct) F = F) ∧
        (levenshtein_distance (normalize_string user (MAX_STR_LEN + 1))
            (normalize_string correct (MAX_STR_LEN + 1)) = 4 →
          calculate_score (some user) (some correct) F = 0 ∧
            calculate_score (some user) (some correct) F ≠ F)) := by
  refine ⟨?_, ⟨by decide, ?_⟩, ?_, ?_, ?_, ?_⟩
  · rw [calculate_score_some, if_pos rfl]
  · rw [calculate_score_some, if_neg (by decide), if_pos (by decide)]
  · rw [calculate_score_some, if_neg (by decide), if_neg (by decide), if_pos (by decide)]
  · rw [calculate_score_some, if_neg (by decide), if_neg (by decide), if_pos (by decide)]
  · rw [calculate_score_some, if_neg (by decide), if_neg (by decide), if_neg (by decide)]
  · intro user correct hlen
    have ha : allowedErrors (normalize_string correct (MAX_STR_LEN + 1)).length = 3 := by
      rw [hlen]; decide
    have hne : ∀ k, 0 < k →
        levenshtein_distance (normalize_string user (MAX_STR_LEN + 1))
          (normalize_string correct (MAX_STR_LEN + 1)) = k →
        normalize_string user (MAX_STR_LEN + 1) ≠ normalize_string correct (MAX_STR_LEN + 1) := by
      intro k hk hd heq
      rw [heq, levenshtein_distance_self _
        (fits_of_le (normalize_string_length_le correct (MAX_STR_LEN + 1)))] at hd
      omega
    refine ⟨ha, fun h3 => ?_, fun h4 => ?_⟩
    · rw [calculate_score_some, if_neg (hne 3 (by decide) h3), h3, hlen, if_neg (by decide),
        if_pos (by decide)]
    · have h0 : calculate_score (some user) (some correct) F = 0 := by
        rw [calculate_score_some, if_neg (hne 4 (by decide) h4), h4, hlen, if_neg (by decide),
          if_neg (by decide)]
      exact ⟨h0, by rw [h0]; exact fun e => hF e.symm⟩

set_option maxRecDepth 20000 in
/-- C14 at full score 5, the correct answer "abcdefghijkl" and the user answers
"abcdefghi" (distance 3) and "abcdefgh" (distance 4). -/
theorem C14_tier_boundaries_witness :
    (5 : Int) ≠ 0 ∧
      (normalize_string [97, 98, 99, 100, 101, 102, 103, 104, 105, 106, 107, 108]
        (MAX_STR_LEN + 1)).length = 12 ∧
      levenshtein_distance (normalize_string [97, 98, 99, 100, 101, 102, 103, 104, 105]
          (MAX_STR_LEN + 1))
        (normalize_string [97, 98, 99, 100, 101, 102, 103, 104, 105, 106, 107, 108]
          (MAX_STR_LEN + 1)) = 3 ∧
      levenshtein_distance (normalize_string [97, 98, 99, 100, 101, 102, 103, 104]
          (MAX_STR_LEN + 1))
        (normalize_string [97, 98, 99, 100, 101, 102, 103, 104, 105, 106, 107, 108]
          (MAX_STR_LEN + 1)) = 4 ∧
      calculate_score (some [97, 98, 99, 100, 101, 102, 103, 104, 105])
        (some [97, 98, 99, 100, 101, 102, 103, 104, 105, 106, 107, 108]) 5 = 5 ∧
      calculate_score (some [97, 98, 99, 100, 101, 102, 103, 104])
        (some [97, 98, 99, 100, 101, 102, 103, 104, 105, 106, 107, 108]) 5 = 0 := by
  have hF : (5 : Int) ≠ 0 := by decide
  have hlen : (normalize_string [97, 98, 99, 100, 101, 102, 103, 104, 105, 106, 107, 108]
      (MAX_STR_LEN + 1)).length = 12 := by decide
  have h3 : levenshtein_distance (normalize_string [97, 98, 99, 100, 101, 102, 103, 104, 105]
        (MAX_STR_LEN + 1))
      (normalize_string [97, 98, 99, 100, 101, 102, 103, 104, 105, 106, 107, 108]
        (MAX_STR_LEN + 1)) = 3 := by decide
  have h4 : levenshtein_distance (normalize_string [97, 98, 99, 100, 101, 102, 103, 104]
        (MAX_STR_LEN + 1))
      (normalize_string [97, 98, 99, 100, 101, 102, 103, 104, 105, 106, 107, 108]
        (MAX_STR_LEN + 1)) = 4 := by decide
  have hu := (C14_tier_boundaries 5 hF).2.2.2.2.2
  exact ⟨hF, hlen, h3, h4, (hu _ _ hlen).2.1 h3, ((hu _ _ hlen).2.2 h4).1⟩

/-- C15: an input that is empty or made of whitespace characters only is normalized to the
empty string. -/
theorem C15_blank_normalizes_to_empty (s : List Nat) (dest_size : Nat)
    (h : ∀ c, c ∈ s → isWhitespace c) : normalize_string s dest_size = [] :=
  normalize_string_of_space dest_size (fun w hw => isspace_of_isWhitespace (h w hw))

/-- C15 at the input space, tab, newline with the destination size of `calculate_score`. -/
theorem C15_blank_normalizes_to_empty_witness :
    (∀ c, c ∈ [32, 9, 10] → isWhitespace c) ∧
      normalize_string [32, 9, 10] (MAX_STR_LEN + 1) = [] :=
  ⟨by decide, C15_blank_normalizes_to_empty [32, 9, 10] (MAX_STR_LEN + 1) (by decide)⟩

/-- C16: for a non-zero full score, whenever `calculate_score` returns `full_score` the
distance between the normalized strings is at most half the normalized correct length. -/
theorem C16_no_match_beyond_half (user correct : List Nat) (full_score : Int)
    (hF : full_score ≠ 0)
    (h : calculate_score (some user) (some correct) full_score = full_score) :
    levenshtein_distance (normalize_string user (MAX_STR_LEN + 1))
        (normalize_string correct (MAX_STR_LEN + 1)) ≤
      (normalize_string correct (MAX_STR_LEN + 1)).length / 2 := by
  rw [calculate_score_some] at h
  split at h
  · next heq =>
    rw [heq, levenshtein_distance_self _
      (fits_of_le (normalize_string_length_le correct (MAX_STR_LEN + 1)))]
    exact Nat.zero_le _
  · split at h
    · exact absurd h.symm hF
    · next hle => omega

/-- C16 at user "campas", correct "campus", full score 5. -/
theorem C16_no_match_beyond_half_witness :
    (5 : Int) ≠ 0 ∧
      calculate_score (some [99, 97, 109, 112, 97, 115]) (some [99, 97, 109, 112, 117, 115]) 5
        = 5 ∧
      levenshtein_distance (normalize_string [99, 97, 109, 112, 97, 115] (MAX_STR_LEN + 1))
          (normalize_string [99, 97, 109, 112, 117, 115] (MAX_STR_LEN + 1)) ≤
        (normalize_string [99, 97, 109, 112, 117, 115] (MAX_STR_LEN + 1)).length / 2 := by
  have hF : (5 : Int) ≠ 0 := by decide
  have h : calculate_score (some [99, 97, 109, 112, 97, 115])
      (some [99, 97, 109, 112, 117, 115]) 5 = 5 := by decide
  exact ⟨hF, h, C16_no_match_beyond_half _ _ 5 hF h⟩

/-- C18: the allowance never exceeds half the length, so `calculate_score` equals the same
function without the half-length test; for normalized-unequal inputs it returns
`full_score` exactly when the distance is at most the allowance. -/
theorem C18_clamp_redundant :
    (∀ len : Nat, len ≤ 256 → allowedErrors len ≤ len / 2) ∧
      (∀ (user correct : Option (List Nat)) (full_score : Int),
        calculate_score user correct full_score =
          calculate_score_noclamp user correct full_score) ∧
      (∀ (user correct : List Nat) (full_score : Int),
        normalize_string user (MAX_STR_LEN + 1) ≠ normalize_string correct (MAX_STR_LEN + 1) →
        calculate_score (some user) (some correct) full_score =
          if levenshtein_distance (normalize_string user (MAX_STR_LEN + 1))
              (normalize_string correct (MAX_STR_LEN + 1)) ≤
                allowedErrors (normalize_string correct (MAX_STR_LEN + 1)).length
          then full_score else 0) := by
  refine ⟨fun len _ => allowedErrors_le_half len, calculate_score_eq_noclamp, ?_⟩
  intro user correct full_score hne
  rw [calculate_score_eq_noclamp, calculate_score_noclamp_some, if_neg hne]

/-- C18 at length 12 and at user "gap", correct "gpa", full score 5. -/
theorem C18_clamp_redundant_witness :
    (12 ≤ 256 ∧ allowedErrors 12 ≤ 12 / 2) ∧
      normalize_string [103, 97, 112] (MAX_STR_LEN + 1) ≠
        normalize_string [103, 112, 97] (MAX_STR_LEN + 1) ∧
      calculate_score (some [103, 97, 112]) (some [103, 112, 97]) 5 =
        if levenshtein_distance (normalize_string [103, 97, 112] (MAX_STR_LEN + 1))
            (normalize_string [103, 112, 97] (MAX_STR_LEN + 1)) ≤
              allowedErrors (normalize_string [103, 112, 97] (MAX_STR_LEN + 1)).length
        then 5 else 0 := by
  have hne : normalize_string [103, 97, 112] (MAX_STR_LEN + 1) ≠
      normalize_string [103, 112, 97] (MAX_STR_LEN + 1) := by decide
  exact ⟨⟨by decide, C18_clamp_redundant.1 12 (by decide)⟩, hne,
    C18_clamp_redundant.2.2 _ _ 5 hne⟩

/-- C19: if exactly one of the two normalized forms is empty, `calculate_score` returns 0
for every full score. -/
theorem C19_blank_never_matches (user correct : List Nat) (full_score : Int)
    (h : (normalize_string user (MAX_STR_LEN + 1) = [] ∧
          normalize_string correct (MAX_STR_LEN + 1) ≠ []) ∨
        (normalize_string user (MAX_STR_LEN + 1) ≠ [] ∧
          normalize_string correct (MAX_STR_LEN + 1) = [])) :
    calculate_score (some user) (some correct) full_score = 0 := by
  rw [calculate_score_some]
  rcases h with ⟨hu, hc⟩ | ⟨hu, hc⟩
  · have hlen : 0 < (normalize_string correct (MAX_STR_LEN + 1)).length :=
      List.length_pos.2 hc
    rw [hu, if_neg (fun e => hc e.symm),
      levenshtein_distance_nil_left _ (normalize_string_length_le correct (MAX_STR_LEN + 1)),
      if_pos (by omega)]
  · have hlen : 0 < (normalize_string user (MAX_STR_LEN + 1)).length :=
      List.length_pos.2 hu
    rw [hc, if_neg hu,
      levenshtein_distance_nil_right _ (normalize_string_length_le user (MAX_STR_LEN + 1)),
      if_pos (by simp; omega)]

/-- C19 at a user answer of two spaces against the correct answer "campus". -/
theorem C19_blank_never_matches_witness :
    ((normalize_string [32, 32] (MAX_STR_LEN + 1) = [] ∧
          normalize_string [99, 97, 109, 112, 117, 115] (MAX_STR_LEN + 1) ≠ []) ∨
        (normalize_string [32, 32] (MAX_STR_LEN + 1) ≠ [] ∧
          normalize_string [99, 97, 109, 112, 117, 115] (MAX_STR_LEN + 1) = [])) ∧
      calculate_score (some [32, 32]) (some [99, 97, 109, 112, 117, 115]) 9 = 0 := by
  have h : (normalize_string [32, 32] (MAX_STR_LEN + 1) = [] ∧
        normalize_string [99, 97, 109, 112, 117, 115] (MAX_STR_LEN + 1) ≠ []) ∨
      (normalize_string [32, 32] (MAX_STR_LEN + 1) ≠ [] ∧
        normalize_string [99, 97, 109, 112, 117, 115] (MAX_STR_LEN + 1) = []) :=
    Or.inl ⟨by decide, by decide⟩
  exact ⟨h, C19_blank_never_matches _ _ 9 h⟩

end Grading
